import Mathlib

/-!
Shallow embedding of the job-control core of `src/Solu_tsh.c` (a tiny shell
with job control), together with theorems settling the specification claims
about the job table, the built-in dispatcher, the child-status handler and
the foreground synchronizer.

Conventions of the embedding:
* C `int` / `pid_t` values are modelled as `Int` (no overflow occurs in the
  scenarios covered by the claims).
* The fixed global array `struct job_t jobs[MAXJOBS]` is a `List job_t` of
  length 16; the global `nextjid` travels with it in `ShellSt`.
* `printf` output and `kill`/`waitfg` calls are modelled as explicit effect
  lists returned by the embedded functions.
* libc `atoi` is modelled faithfully (leading-whitespace skip, optional
  sign, then a decimal-digit run), with mathematical integers.
-/

namespace Tsh

/-- `MAXJOBS` from the source: max jobs at any point in time. -/
def MAXJOBS : Nat := 16

/-- Job state `UNDEF` (0) from the source. -/
def UNDEF : Int := 0

/-- Job state `FG` (1): running in foreground. -/
def FG : Int := 1

/-- Job state `BG` (2): running in background. -/
def BG : Int := 2

/-- Job state `ST` (3): stopped. -/
def ST : Int := 3

/-- Signal number used by `kill(-pid, SIGCONT)` in `do_bgfg` (Linux value). -/
def SIGCONT : Int := 18

/-- `struct job_t` from the source. -/
structure job_t where
  pid : Int
  jid : Int
  state : Int
  cmdline : String
deriving DecidableEq, Repr

/-- `clearjob`: the all-cleared job record (`pid = 0`, `jid = 0`,
`state = UNDEF`, empty command line). -/
def clearedJob : job_t := ⟨0, 0, UNDEF, ""⟩

/-- The shell's job-table state: the 16-slot array `jobs` plus the global
`nextjid` counter. -/
structure ShellSt where
  jobs : List job_t
  nextjid : Int
deriving DecidableEq, Repr

/-- `initjobs` applied to the global table at startup, with `nextjid = 1`. -/
def initState : ShellSt := ⟨List.replicate MAXJOBS clearedJob, 1⟩

/-- `maxjid`: largest allocated job ID, a linear scan with accumulator
starting at 0 (`if (jobs[i].jid > max) max = jobs[i].jid`). -/
def maxjid (l : List job_t) : Int :=
  l.foldl (fun m j => if j.jid > m then j.jid else m) 0

/-- The slot-filling scan of `addjob`: find the first slot with `pid == 0`,
fill it with the new job carrying jid `nj`, and return the updated list
together with the post-increment value of `nextjid`
(`nextjid++; if (nextjid > MAXJOBS) nextjid = 1`). `none` when no empty
slot exists. -/
def addjobAux (l : List job_t) (p : Int) (st : Int) (c : String) (nj : Int) :
    Option (List job_t × Int) :=
  match l with
  | [] => none
  | j :: rest =>
    if j.pid = 0 then
      some (⟨p, nj, st, c⟩ :: rest, if nj + 1 > 16 then 1 else nj + 1)
    else
      match addjobAux rest p st c nj with
      | some (rest', nj') => some (j :: rest', nj')
      | none => none

/-- `addjob(jobs, pid, state, cmdline)`: returns the new state, the success
flag, and the printed output (`"Tried to create too many jobs"` when the
table is full).  Fails without mutation when `pid < 1`. The `verbose`
diagnostic is omitted (`verbose = 0` throughout the claims). -/
def addjob (s : ShellSt) (p : Int) (st : Int) (c : String) :
    ShellSt × Bool × List String :=
  if p < 1 then (s, false, [])
  else
    match addjobAux s.jobs p st c s.nextjid with
    | some (l', nj') => (⟨l', nj'⟩, true, [])
    | none => (s, false, ["Tried to create too many jobs\n"])

/-- The scan of `deletejob`: clear the first slot whose `pid` matches,
returning `none` when no slot matches. -/
def deletejobAux (l : List job_t) (p : Int) : Option (List job_t) :=
  match l with
  | [] => none
  | j :: rest =>
    if j.pid = p then some (clearedJob :: rest)
    else
      match deletejobAux rest p with
      | some rest' => some (j :: rest')
      | none => none

/-- `deletejob(jobs, pid)`: clears the first matching slot and recomputes
`nextjid = maxjid(jobs) + 1` (on the updated table); no mutation when
`pid < 1` or when no slot matches. -/
def deletejob (s : ShellSt) (p : Int) : ShellSt × Bool :=
  if p < 1 then (s, false)
  else
    match deletejobAux s.jobs p with
    | some l' => (⟨l', maxjid l' + 1⟩, true)
    | none => (s, false)

/-- `getjobpid`: find a job by PID; rejects `pid < 1`. -/
def getjobpid (l : List job_t) (p : Int) : Option job_t :=
  if p < 1 then none else l.find? (fun j => j.pid == p)

/-- `getjobjid`: find a job by JID; rejects `jid < 1`. -/
def getjobjid (l : List job_t) (jid : Int) : Option job_t :=
  if jid < 1 then none else l.find? (fun j => j.jid == jid)

/-- `pid2jid`: map process ID to job ID, 0 when absent or `pid < 1`. -/
def pid2jid (l : List job_t) (p : Int) : Int :=
  if p < 1 then 0
  else
    match l.find? (fun j => j.pid == p) with
    | some j => j.jid
    | none => 0

/-- `fgpid`: PID of the current foreground job, 0 if none. -/
def fgpid (l : List job_t) : Int :=
  match l.find? (fun j => j.state == FG) with
  | some j => j.pid
  | none => 0

/-- Writing through the pointer returned by `getjobpid`
(`temp->state = x`): update the `state` field of the first slot whose
`pid` matches. -/
def setStatePid (l : List job_t) (p : Int) (st : Int) : List job_t :=
  match l with
  | [] => []
  | j :: rest =>
    if j.pid = p then { j with state := st } :: rest
    else j :: setStatePid rest p st

/-- Writing through the pointer returned by `getjobjid`
(`temp1->state = x`): update the `state` field of the first slot whose
`jid` matches. -/
def setStateJid (l : List job_t) (jid : Int) (st : Int) : List job_t :=
  match l with
  | [] => []
  | j :: rest =>
    if j.jid = jid then { j with state := st } :: rest
    else j :: setStateJid rest jid st

/-! ### libc `atoi` and the digit-count check of `do_bgfg` -/

/-- C's digit test (`isdigit`), on code points: `48 ≤ c ∧ c ≤ 57`. -/
def isDigitC (c : Char) : Bool :=
  48 ≤ c.toNat && c.toNat ≤ 57

/-- C's whitespace test (`isspace`) used by `atoi`: space, `\t`, `\n`,
vertical tab, form feed, `\r`. -/
def isSpaceC (c : Char) : Bool :=
  c == ' ' || c == '\t' || c == '\n' || c == '\x0b' || c == '\x0c' || c == '\r'

/-- The digit-accumulation loop of `atoi`: consume a maximal run of decimal
digits, accumulating `acc * 10 + (c - 48)`. -/
def digitsVal : List Char → Nat → Nat
  | [], acc => acc
  | c :: rest, acc => if isDigitC c then digitsVal rest (acc * 10 + (c.toNat - 48)) else acc

/-- `atoi` after the whitespace skip: an optional sign followed by a digit
run. -/
def atoiSigned (cs : List Char) : Int :=
  match cs with
  | [] => 0
  | c :: rest =>
    if c = '-' then - (digitsVal rest 0 : Int)
    else if c = '+' then (digitsVal rest 0 : Int)
    else (digitsVal (c :: rest) 0 : Int)

/-- libc `atoi`, modelled on mathematical integers (no overflow). -/
def atoiChars (cs : List Char) : Int :=
  atoiSigned (cs.dropWhile isSpaceC)

/-- Fuel-driven digit-counter loop; the fuel only bounds the recursion
depth (`n` itself is always a sufficient bound), keeping the function
kernel-reducible. -/
def cdGo : Nat → Nat → Nat
  | _, 0 => 0
  | n, f + 1 => if n = 0 then 0 else cdGo (n / 10) f + 1

/-- The digit counter of `do_bgfg`:
`while (result > 0) { result = result / 10; count++; }`. -/
def countDigitsNat (n : Nat) : Nat := cdGo n n

/-- The same counter on the `int` result of `atoi`: 0 for non-positive
values. -/
def countDigits (r : Int) : Nat := countDigitsNat r.toNat

/-- The argument preprocessing of `do_bgfg`: `l = strlen(argv[1])`; when the
first character is `'%'` it is overwritten with `'0'`, `l` is decremented
and `flag` is set. Returns the (possibly mutated) character list, `l`, and
`flag`. -/
def stripArg (cs : List Char) : List Char × Nat × Bool :=
  match cs with
  | [] => ([], 0, false)
  | c :: rest =>
    if c = '%' then ('0' :: rest, (c :: rest).length - 1, true)
    else (c :: rest, (c :: rest).length, false)

/-! ### Effects and the bg/fg dispatcher -/

/-- Observable actions of the dispatcher: `printf` output, `kill(pid, sig)`,
and a call to the foreground synchronizer `waitfg(pid)`. -/
inductive Eff where
  | print (s : String)
  | kill (p : Int) (sig : Int)
  | waitE (p : Int)
deriving DecidableEq, Repr

/-- The body of `do_bgfg` after the argument has passed the digit-count
check: `result` is the parsed number, `flag` tells whether the argument was
`%jid` (true) or a pid (false).  Faithful to lines 355-413 of the source,
including the `JOB [jid] (pid) state` diagnostic on the pid path and the
exact `No such process` / `No such Job` message spellings. -/
def bgfgAct (cmd : String) (r : Int) (flag : Bool) (s : ShellSt) :
    ShellSt × List Eff :=
  if flag = false then
    match getjobpid s.jobs r with
    | some temp =>
      let pr := Eff.print ("JOB [" ++ toString (pid2jid s.jobs r) ++ "] (" ++
        toString r ++ ") " ++ toString temp.state ++ "\n")
      if temp.state = ST ∧ cmd = "bg" then
        (⟨setStatePid s.jobs r BG, s.nextjid⟩, [pr, Eff.kill (-r) SIGCONT])
      else if temp.state = ST ∧ cmd = "fg" then
        (⟨setStatePid s.jobs r FG, s.nextjid⟩,
          [pr, Eff.kill (-r) SIGCONT, Eff.waitE r])
      else if temp.state = BG ∧ cmd = "fg" then
        (⟨setStatePid s.jobs r FG, s.nextjid⟩, [pr, Eff.waitE r])
      else (s, [pr])
    | none => (s, [Eff.print (toString r ++ " : No such process\n ")])
  else
    match getjobjid s.jobs r with
    | some temp1 =>
      let r1 := temp1.pid
      if temp1.state = ST ∧ cmd = "bg" then
        (⟨setStateJid s.jobs r BG, s.nextjid⟩, [Eff.kill (-r1) SIGCONT])
      else if temp1.state = ST ∧ cmd = "fg" then
        (⟨setStateJid s.jobs r FG, s.nextjid⟩,
          [Eff.kill (-r1) SIGCONT, Eff.waitE r1])
      else if temp1.state = BG ∧ cmd = "fg" then
        (⟨setStateJid s.jobs r FG, s.nextjid⟩, [Eff.waitE r1])
      else (s, [])
    | none => (s, [Eff.print ("%" ++ toString r ++ " : No such Job\n ")])

/-- `do_bgfg(argv)`, with `argv[0] = cmd` and `argv[1] = arg` (`none` when
absent). Validates the argument with `atoi` and the digit-count loop, then
dispatches to `bgfgAct`. -/
def do_bgfg (cmd : String) (arg : Option String) (s : ShellSt) :
    ShellSt × List Eff :=
  if cmd = "fg" ∨ cmd = "bg" then
    match arg with
    | none => (s, [Eff.print (cmd ++ ": command must be a PID or %jobid argument\n")])
    | some a =>
      if countDigits (atoiChars (stripArg a.toList).1) ≠ (stripArg a.toList).2.1 then
        (s, [Eff.print (cmd ++ ": argument must be PID or %jobid\n")])
      else bgfgAct cmd (atoiChars (stripArg a.toList).1) (stripArg a.toList).2.2 s
  else (s, [])

/-- The validation condition the digit-count check actually implements
(used by the amended claim C5): the remainder after stripping an optional
`%` is accepted iff it is empty or is a run of decimal digits with no
leading zero. -/
def goodDigits : List Char → Bool
  | [] => true
  | c :: rest => isDigitC c && !(c == '0') && rest.all isDigitC

/-- The amended acceptance condition on the raw bg/fg target argument. -/
def goodTarget (a : String) : Bool :=
  match a.toList with
  | [] => true
  | c :: rest => if c = '%' then goodDigits rest else goodDigits (c :: rest)

/-! ### Built-in dispatcher and `eval` classification -/

/-- `listjobs`: one output string per non-empty slot, in slot order. -/
def listjobs (l : List job_t) : List String :=
  (l.enum.filterMap fun ij =>
    if ij.2.pid ≠ 0 then
      some ("[" ++ toString ij.2.jid ++ "] (" ++ toString ij.2.pid ++ ") " ++
        (if ij.2.state = BG then "Running "
         else if ij.2.state = FG then "Foreground "
         else if ij.2.state = ST then "Stopped "
         else "listjobs: Internal error: job[" ++ toString ij.1 ++ "].state=" ++
           toString ij.2.state ++ " ") ++ ij.2.cmdline)
    else none)

/-- Outcome of `builtin_cmd`: not a built-in (returns 0), handled (returns
1), or the shell process terminates via `exit(0)`. -/
inductive BRes where
  | notBuiltin
  | handled
  | exitSh
deriving DecidableEq, Repr

/-- `builtin_cmd(argv)` with `argv[0] = a0`, `argv[1] = a1`. `quit` is only
recognized with no argument; it refuses to exit (printing a diagnostic)
when some job has `state == 3`, else exits. `jobs` lists jobs; `fg`/`bg`
delegate to `do_bgfg`. -/
def builtin_cmd (a0 : String) (a1 : Option String) (s : ShellSt) :
    BRes × ShellSt × List Eff :=
  if a0 = "quit" ∧ a1 = none then
    match s.jobs.find? (fun j => j.state == ST) with
    | some _ => (BRes.handled, s, [Eff.print "there are stopped jobs\n"])
    | none => (BRes.exitSh, s, [])
  else if a0 = "jobs" then
    (BRes.handled, s, (listjobs s.jobs).map Eff.print)
  else if a0 = "fg" ∨ a0 = "bg" then
    let t := do_bgfg a0 a1 s
    (BRes.handled, t.1, t.2)
  else (BRes.notBuiltin, s, [])

/-- How `eval` classifies a tokenized line: empty line, handled built-in, or
handed to the fork/exec launcher. -/
inductive EvalClass where
  | blank
  | builtin
  | launch
deriving DecidableEq, Repr

/-- The dispatch decision of `eval`: return on empty `argv`, return after a
built-in, otherwise fork and launch the external program. -/
def evalClass (argv : List String) (s : ShellSt) : EvalClass :=
  match argv with
  | [] => EvalClass.blank
  | a0 :: rest =>
    if (builtin_cmd a0 rest.head? s).1 = BRes.notBuiltin then EvalClass.launch
    else EvalClass.builtin

/-! ### The SIGCHLD handler -/

/-- Decoded `waitpid` status of a reaped child: terminated by a signal
(`WIFSIGNALED`), exited normally (`WIFEXITED`), or stopped
(`WIFSTOPPED`). -/
inductive CStatus where
  | signaled (n : Int)
  | exited (code : Int)
  | stopped (n : Int)
deriving DecidableEq, Repr

/-- One iteration of the `sigchld_handler` reap loop for a child `pid` with
decoded status `st`.  Note the source prints the literal signal numbers 2
and 20 in its messages, and sets the slot state to `UNDEF` before calling
`deletejob`. -/
def sigchldStep (s : ShellSt) (p : Int) (st : CStatus) : ShellSt × List String :=
  match st with
  | CStatus.signaled _ =>
    let msg := "Job [" ++ toString (pid2jid s.jobs p) ++ "] (" ++ toString p ++
      ") terminated by signal 2"
    ((deletejob ⟨setStatePid s.jobs p UNDEF, s.nextjid⟩ p).1, [msg])
  | CStatus.exited _ =>
    ((deletejob ⟨setStatePid s.jobs p UNDEF, s.nextjid⟩ p).1, [])
  | CStatus.stopped _ =>
    (⟨setStatePid s.jobs p ST, s.nextjid⟩,
      ["Job [" ++ toString (pid2jid s.jobs p) ++ "] (" ++ toString p ++
        ") stopped by signal 20\n"])

/-- The whole handler: fold `sigchldStep` over the sequence of children
reaped by the `waitpid(-1, &stat, WNOHANG | WUNTRACED)` loop. -/
def sigchld_handler (s : ShellSt) (events : List (Int × CStatus)) :
    ShellSt × List String :=
  events.foldl (fun acc ev =>
    let r := sigchldStep acc.1 ev.1 ev.2
    (r.1, acc.2 ++ r.2)) (s, [])

/-! ### The foreground synchronizer `waitfg` -/

/-- The slot index captured by `waitfg`'s single `getjobpid` call. -/
def getjobpidIdx (l : List job_t) (p : Int) : Option Nat :=
  if p < 1 then none else l.findIdx? (fun j => j.pid == p)

/-- The poll condition of `waitfg`'s loop: slot `i` exists and its state is
`FG` (= 1). -/
def slotFG (l : List job_t) (i : Nat) : Bool :=
  match l.get? i with
  | some j => j.state == FG
  | none => false

/-- `waitfg pid` run against a trace of table states (the table as mutated
asynchronously by the signal handlers; `trace 0` is the table at entry):
the call returns at poll step `n` iff either `getjobpid` found no entry
(immediate return, `n = 0`), or the captured slot first leaves state `FG`
at step `n`. -/
def waitfgReturns (p : Int) (tbl : List job_t) (trace : Nat → List job_t)
    (n : Nat) : Prop :=
  match getjobpidIdx tbl p with
  | none => n = 0
  | some i => slotFG (trace n) i = false ∧ ∀ m, m < n → slotFG (trace m) i = true

/-! ### Job-table operation sequences and reachability -/

/-- A control-thread mutation of the job table: `addjob` or `deletejob`. -/
inductive Op where
  | add (p : Int) (st : Int) (c : String)
  | del (p : Int)
deriving DecidableEq, Repr

/-- Apply one operation to the state (discarding output/flags). -/
def applyOp (s : ShellSt) (op : Op) : ShellSt :=
  match op with
  | Op.add p st c => (addjob s p st c).1
  | Op.del p => (deletejob s p).1

/-- Run a sequence of operations from a state. -/
def runOps (s : ShellSt) (ops : List Op) : ShellSt :=
  ops.foldl applyOp s

/-- A table state reachable from the initialized table by `addjob` /
`deletejob` operations. -/
def Reachable (s : ShellSt) : Prop :=
  ∃ ops : List Op, s = runOps initState ops

/-! ### Invariant predicates -/

/-- The `maxjid` fold from an arbitrary accumulator. -/
def maxjidGo (a : Int) (l : List job_t) : Int :=
  l.foldl (fun m j => if j.jid > m then j.jid else m) a

/-- Every empty slot (pid 0) of the table is fully cleared. -/
def SlotsClear (s : ShellSt) : Prop :=
  ∀ j ∈ s.jobs, j.pid = 0 → j = clearedJob

/-- The `nextjid` counter is `maxjid + 1`, except transiently after the
post-increment wraparound fired, which can only happen once the maximum
live jid has reached the table capacity 16. -/
def NextJidInv (s : ShellSt) : Prop :=
  s.nextjid = maxjid s.jobs + 1 ∨ (s.nextjid ≤ 16 ∧ 16 ≤ maxjid s.jobs)

/-- Number of slots holding pid `p`. -/
def pidCount (l : List job_t) (p : Int) : Nat :=
  l.countP (fun j => j.pid == p)

/-- Number of slots in state `FG`. -/
def fgCount (l : List job_t) : Nat :=
  l.countP (fun j => j.state == FG)

/-- Admissibility of one operation in the shell's usage discipline: an
`addjob` uses a pid not currently in the table (unless it is a no-op with
`pid < 1`) and requests state `FG` only when no job is currently
foreground.  `deletejob` is always admissible. -/
def okOp (s : ShellSt) (op : Op) : Bool :=
  match op with
  | Op.add p st _ =>
    (decide (p < 1) || s.jobs.all (fun j => !(j.pid == p))) &&
      (!(st == FG) || s.jobs.all (fun j => !(j.state == FG)))
  | Op.del _ => true

/-- Admissibility of a whole operation sequence, checked state by state. -/
def okSeq : ShellSt → List Op → Bool
  | _, [] => true
  | s, op :: rest => okOp s op && okSeq (applyOp s op) rest

/-- The compound table invariant: clean empty slots, pairwise-distinct
non-zero pids, and at most one foreground job. -/
def TableInv (s : ShellSt) : Prop :=
  SlotsClear s ∧ (∀ p : Int, p ≠ 0 → pidCount s.jobs p ≤ 1) ∧ fgCount s.jobs ≤ 1

/-! ### Structural lemmas about the table scans -/

/-- `addjobAux` succeeds exactly by filling the first empty slot. -/
theorem addjobAux_eq_some {l : List job_t} {p st : Int} {c : String} {nj : Int}
    {l' : List job_t} {nj' : Int}
    (h : addjobAux l p st c nj = some (l', nj')) :
    ∃ l1 e l2, l = l1 ++ e :: l2 ∧ e.pid = 0 ∧ (∀ x ∈ l1, x.pid ≠ 0) ∧
      l' = l1 ++ (⟨p, nj, st, c⟩ : job_t) :: l2 ∧
      nj' = if nj + 1 > 16 then 1 else nj + 1 := by
  induction l generalizing l' with
  | nil => simp [addjobAux] at h
  | cons j rest ih =>
    by_cases hj : j.pid = 0
    · refine ⟨[], j, rest, by simp, hj, by simp, ?_, ?_⟩
      · simp only [addjobAux, if_pos hj, Option.some.injEq, Prod.mk.injEq] at h
        simp [← h.1]
      · simp only [addjobAux, if_pos hj, Option.some.injEq, Prod.mk.injEq] at h
        exact h.2.symm
    · simp only [addjobAux, if_neg hj] at h
      cases hrec : addjobAux rest p st c nj with
      | none => rw [hrec] at h; cases h
      | some pr =>
        rw [hrec] at h
        cases h
        obtain ⟨l1, e, l2, hdec, hepid, hl1, hres, hnj⟩ := ih hrec
        exact ⟨j :: l1, e, l2, by rw [hdec]; rfl, hepid,
          by intro x hx; rcases List.mem_cons.1 hx with rfl | hx; exact hj; exact hl1 x hx,
          by rw [hres]; rfl, hnj⟩

/-- `addjobAux` fails exactly when no slot is empty. -/
theorem addjobAux_eq_none {l : List job_t} {p st : Int} {c : String} {nj : Int} :
    addjobAux l p st c nj = none ↔ ∀ e ∈ l, e.pid ≠ 0 := by
  induction l with
  | nil => simp [addjobAux]
  | cons j rest ih =>
    by_cases hj : j.pid = 0
    · simp [addjobAux, hj]
    · simp only [addjobAux, if_neg hj]
      cases hrec : addjobAux rest p st c nj with
      | none => simpa [hj] using ih.1 hrec
      | some pr =>
        simp only [List.mem_cons]
        constructor
        · intro h; cases h
        · intro h
          have : addjobAux rest p st c nj = none := ih.2 (fun e he => h e (Or.inr he))
          rw [this] at hrec; cases hrec

/-- `deletejobAux` succeeds exactly by clearing the first matching slot. -/
theorem deletejobAux_eq_some {l : List job_t} {p : Int} {l' : List job_t}
    (h : deletejobAux l p = some l') :
    ∃ l1 e l2, l = l1 ++ e :: l2 ∧ e.pid = p ∧ (∀ x ∈ l1, x.pid ≠ p) ∧
      l' = l1 ++ clearedJob :: l2 := by
  induction l generalizing l' with
  | nil => simp [deletejobAux] at h
  | cons j rest ih =>
    by_cases hj : j.pid = p
    · simp only [deletejobAux, if_pos hj, Option.some.injEq] at h
      exact ⟨[], j, rest, by simp, hj, by simp, by simp [← h]⟩
    · simp only [deletejobAux, if_neg hj] at h
      cases hrec : deletejobAux rest p with
      | none => rw [hrec] at h; cases h
      | some rest' =>
        rw [hrec] at h
        cases h
        obtain ⟨l1, e, l2, hdec, hepid, hl1, hres⟩ := ih hrec
        exact ⟨j :: l1, e, l2, by rw [hdec]; rfl, hepid,
          by intro x hx; rcases List.mem_cons.1 hx with rfl | hx; exact hj; exact hl1 x hx,
          by rw [hres]; rfl⟩

/-- `deletejobAux` fails exactly when no slot matches. -/
theorem deletejobAux_eq_none {l : List job_t} {p : Int} :
    deletejobAux l p = none ↔ ∀ e ∈ l, e.pid ≠ p := by
  induction l with
  | nil => simp [deletejobAux]
  | cons j rest ih =>
    by_cases hj : j.pid = p
    · simp [deletejobAux, hj]
    · simp only [deletejobAux, if_neg hj]
      cases hrec : deletejobAux rest p with
      | none => simpa [hj] using ih.1 hrec
      | some rest' =>
        simp only [List.mem_cons]
        constructor
        · intro h; cases h
        · intro h
          have : deletejobAux rest p = none := ih.2 (fun e he => h e (Or.inr he))
          rw [this] at hrec; cases hrec

/-- `setStatePid` rewrites the first matching slot when the list splits at
it. -/
theorem setStatePid_split {l1 : List job_t} {e : job_t} {l2 : List job_t}
    {p st : Int} (he : e.pid = p) (h1 : ∀ x ∈ l1, x.pid ≠ p) :
    setStatePid (l1 ++ e :: l2) p st = l1 ++ { e with state := st } :: l2 := by
  induction l1 with
  | nil => simp [setStatePid, he]
  | cons x xs ih =>
    have hx : x.pid ≠ p := h1 x (List.mem_cons_self x xs)
    simp only [List.cons_append, setStatePid, if_neg hx, List.append_eq]
    rw [ih (fun y hy => h1 y (List.mem_cons_of_mem x hy))]

/-- `setStatePid` is the identity when no slot matches. -/
theorem setStatePid_id {l : List job_t} {p st : Int}
    (h : ∀ x ∈ l, x.pid ≠ p) : setStatePid l p st = l := by
  induction l with
  | nil => rfl
  | cons x xs ih =>
    have hx : x.pid ≠ p := h x (List.mem_cons_self x xs)
    simp only [setStatePid, if_neg hx]
    rw [ih (fun y hy => h y (List.mem_cons_of_mem x hy))]

/-- `setStateJid` rewrites the first matching slot when the list splits at
it. -/
theorem setStateJid_split {l1 : List job_t} {e : job_t} {l2 : List job_t}
    {jid st : Int} (he : e.jid = jid) (h1 : ∀ x ∈ l1, x.jid ≠ jid) :
    setStateJid (l1 ++ e :: l2) jid st = l1 ++ { e with state := st } :: l2 := by
  induction l1 with
  | nil => simp [setStateJid, he]
  | cons x xs ih =>
    have hx : x.jid ≠ jid := h1 x (List.mem_cons_self x xs)
    simp only [List.cons_append, setStateJid, if_neg hx, List.append_eq]
    rw [ih (fun y hy => h1 y (List.mem_cons_of_mem x hy))]

/-- A successful `getjobpid` lookup splits the table at the first match. -/
theorem getjobpid_eq_some {l : List job_t} {p : Int} {job : job_t}
    (h : getjobpid l p = some job) :
    1 ≤ p ∧ job.pid = p ∧
      ∃ l1 l2, l = l1 ++ job :: l2 ∧ ∀ x ∈ l1, x.pid ≠ p := by
  unfold getjobpid at h
  split at h
  · cases h
  · next hge =>
    obtain ⟨hpb, l1, l2, hdec, hl1⟩ := List.find?_eq_some.1 h
    refine ⟨by omega, by simpa using hpb, l1, l2, hdec, ?_⟩
    intro x hx
    have := hl1 x hx
    simpa using this

/-- A successful `getjobjid` lookup splits the table at the first match. -/
theorem getjobjid_eq_some {l : List job_t} {jid : Int} {job : job_t}
    (h : getjobjid l jid = some job) :
    1 ≤ jid ∧ job.jid = jid ∧
      ∃ l1 l2, l = l1 ++ job :: l2 ∧ ∀ x ∈ l1, x.jid ≠ jid := by
  unfold getjobjid at h
  split at h
  · cases h
  · next hge =>
    obtain ⟨hpb, l1, l2, hdec, hl1⟩ := List.find?_eq_some.1 h
    refine ⟨by omega, by simpa using hpb, l1, l2, hdec, ?_⟩
    intro x hx
    have := hl1 x hx
    simpa using this

/-- `pid2jid` agrees with a successful `getjobpid` lookup. -/
theorem pid2jid_eq_of_getjobpid {l : List job_t} {p : Int} {job : job_t}
    (h : getjobpid l p = some job) : pid2jid l p = job.jid := by
  unfold getjobpid at h
  unfold pid2jid
  split at h
  · cases h
  · next hge => rw [if_neg hge, h]

/-! ### `maxjid` bounds -/

theorem maxjid_eq_go (l : List job_t) : maxjid l = maxjidGo 0 l := rfl

theorem le_maxjidGo (a : Int) (l : List job_t) : a ≤ maxjidGo a l := by
  induction l generalizing a with
  | nil => exact le_refl a
  | cons j rest ih =>
    refine le_trans ?_ (ih (if j.jid > a then j.jid else a))
    split
    · next h => exact le_of_lt h
    · exact le_refl a

theorem jid_le_maxjidGo {a : Int} {l : List job_t} {j : job_t} (hj : j ∈ l) :
    j.jid ≤ maxjidGo a l := by
  induction l generalizing a with
  | nil => cases hj
  | cons x rest ih =>
    rcases List.mem_cons.1 hj with rfl | hj'
    · refine le_trans ?_ (le_maxjidGo (if j.jid > a then j.jid else a) rest)
      split
      · exact le_refl _
      · next h => omega
    · exact ih hj'

theorem maxjidGo_le {a B : Int} {l : List job_t} (ha : a ≤ B)
    (h : ∀ j ∈ l, j.jid ≤ B) : maxjidGo a l ≤ B := by
  induction l generalizing a with
  | nil => exact ha
  | cons x rest ih =>
    have hx : x.jid ≤ B := h x (List.mem_cons_self x rest)
    have h2 : (if x.jid > a then x.jid else a) ≤ B := by
      split
      · exact hx
      · exact ha
    exact ih h2 (fun j hj => h j (List.mem_cons_of_mem x hj))

theorem maxjid_nonneg (l : List job_t) : 0 ≤ maxjid l := le_maxjidGo 0 l

theorem jid_le_maxjid {l : List job_t} {j : job_t} (hj : j ∈ l) :
    j.jid ≤ maxjid l := jid_le_maxjidGo hj

theorem maxjid_le {B : Int} {l : List job_t} (hB : 0 ≤ B)
    (h : ∀ j ∈ l, j.jid ≤ B) : maxjid l ≤ B := maxjidGo_le hB h

/-- Replacing a slot whose `jid` is 0 by a job with jid `y` moves the table
maximum to `max (maxjid l) y`. -/
theorem maxjid_replace {l1 : List job_t} {e : job_t} {l2 : List job_t}
    {y : job_t} (he : e.jid = 0) :
    maxjid (l1 ++ y :: l2) = max (maxjid (l1 ++ e :: l2)) y.jid := by
  apply le_antisymm
  · apply maxjid_le
    · exact le_trans (maxjid_nonneg _) (le_max_left _ _)
    · intro j hj
      rcases List.mem_append.1 hj with hj1 | hj2
      · exact le_trans (jid_le_maxjid (List.mem_append_left _ hj1)) (le_max_left _ _)
      · rcases List.mem_cons.1 hj2 with rfl | hj3
        · exact le_max_right _ _
        · exact le_trans
            (jid_le_maxjid (List.mem_append_right l1 (List.mem_cons_of_mem e hj3)))
            (le_max_left _ _)
  · apply max_le
    · apply maxjid_le (maxjid_nonneg _)
      intro j hj
      rcases List.mem_append.1 hj with hj1 | hj2
      · exact jid_le_maxjid (List.mem_append_left _ hj1)
      · rcases List.mem_cons.1 hj2 with rfl | hj3
        · rw [he]; exact maxjid_nonneg _
        · exact jid_le_maxjid (List.mem_append_right l1 (List.mem_cons_of_mem y hj3))
    · exact jid_le_maxjid (List.mem_append_right l1 (List.mem_cons_self y l2))

/-! ### Success characterizations of `addjob` / `deletejob` -/

/-- What a successful `addjob` call does: `pid ≥ 1`, no output, the first
empty slot is filled with jid `nextjid`, and `nextjid` is bumped with the
post-increment wraparound. -/
theorem addjob_success {s : ShellSt} {p st : Int} {c : String} {s' : ShellSt}
    {out : List String} (h : addjob s p st c = (s', true, out)) :
    1 ≤ p ∧ out = [] ∧
      ∃ l1 e l2, s.jobs = l1 ++ e :: l2 ∧ e.pid = 0 ∧ (∀ x ∈ l1, x.pid ≠ 0) ∧
        s'.jobs = l1 ++ (⟨p, s.nextjid, st, c⟩ : job_t) :: l2 ∧
        s'.nextjid = if s.nextjid + 1 > 16 then 1 else s.nextjid + 1 := by
  unfold addjob at h
  split at h
  · simp at h
  · next hp =>
    rcases haux : addjobAux s.jobs p st c s.nextjid with - | ⟨lres, njres⟩
    · rw [haux] at h; simp at h
    · rw [haux] at h
      simp only [Prod.mk.injEq, true_and] at h
      obtain ⟨hs', hout⟩ := h
      obtain ⟨l1, e, l2, hdec, hepid, hl1, hres, hnj⟩ := addjobAux_eq_some haux
      refine ⟨by omega, hout.symm, l1, e, l2, hdec, hepid, hl1, ?_, ?_⟩
      · rw [← hs']; exact hres
      · rw [← hs']; exact hnj

/-- What a successful `deletejob` call does: the first matching slot is
cleared and `nextjid` is recomputed from the new table. -/
theorem deletejob_success {s : ShellSt} {p : Int} {s' : ShellSt}
    (h : deletejob s p = (s', true)) :
    1 ≤ p ∧
      ∃ l1 e l2, s.jobs = l1 ++ e :: l2 ∧ e.pid = p ∧ (∀ x ∈ l1, x.pid ≠ p) ∧
        s'.jobs = l1 ++ clearedJob :: l2 ∧ s'.nextjid = maxjid s'.jobs + 1 := by
  unfold deletejob at h
  split at h
  · simp at h
  · next hp =>
    cases haux : deletejobAux s.jobs p with
    | none => rw [haux] at h; simp at h
    | some l' =>
      rw [haux] at h
      simp only [Prod.mk.injEq, and_true] at h
      obtain ⟨l1, e, l2, hdec, hepid, hl1, hres⟩ := deletejobAux_eq_some haux
      refine ⟨by omega, l1, e, l2, hdec, hepid, hl1, ?_, ?_⟩
      · rw [← h]; exact hres
      · rw [← h]

/-! ### Reachability invariants -/

theorem slotsClear_applyOp {s : ShellSt} (hs : SlotsClear s) (op : Op) :
    SlotsClear (applyOp s op) := by
  cases op with
  | add p st c =>
    show SlotsClear (addjob s p st c).1
    rcases hsucc : addjob s p st c with ⟨s', ok, out⟩
    cases ok with
    | false =>
      unfold addjob at hsucc
      split at hsucc
      · simp only [Prod.mk.injEq] at hsucc
        exact hsucc.1 ▸ hs
      · split at hsucc
        · simp at hsucc
        · simp only [Prod.mk.injEq] at hsucc
          exact hsucc.1 ▸ hs
    | true =>
      obtain ⟨hp, -, l1, e, l2, hdec, -, -, hres, -⟩ := addjob_success hsucc
      intro j hj hjpid
      rw [hres] at hj
      rcases List.mem_append.1 hj with hj1 | hj2
      · exact hs j (hdec ▸ List.mem_append_left _ hj1) hjpid
      · rcases List.mem_cons.1 hj2 with rfl | hj3
        · exfalso; simp at hjpid; omega
        · exact hs j (hdec ▸ List.mem_append_right l1 (List.mem_cons_of_mem e hj3)) hjpid
  | del p =>
    show SlotsClear (deletejob s p).1
    rcases hsucc : deletejob s p with ⟨s', ok⟩
    cases ok with
    | false =>
      unfold deletejob at hsucc
      split at hsucc
      · simp only [Prod.mk.injEq] at hsucc
        exact hsucc.1 ▸ hs
      · split at hsucc
        · simp at hsucc
        · simp only [Prod.mk.injEq] at hsucc
          exact hsucc.1 ▸ hs
    | true =>
      obtain ⟨hp, l1, e, l2, hdec, -, -, hres, -⟩ := deletejob_success hsucc
      intro j hj hjpid
      rw [hres] at hj
      rcases List.mem_append.1 hj with hj1 | hj2
      · exact hs j (hdec ▸ List.mem_append_left _ hj1) hjpid
      · rcases List.mem_cons.1 hj2 with rfl | hj3
        · rfl
        · exact hs j (hdec ▸ List.mem_append_right l1 (List.mem_cons_of_mem e hj3)) hjpid

theorem nextJidInv_applyOp {s : ShellSt} (hc : SlotsClear s) (hn : NextJidInv s)
    (op : Op) : NextJidInv (applyOp s op) := by
  cases op with
  | add p st c =>
    show NextJidInv (addjob s p st c).1
    rcases hsucc : addjob s p st c with ⟨s', ok, out⟩
    cases ok with
    | false =>
      unfold addjob at hsucc
      split at hsucc
      · simp only [Prod.mk.injEq] at hsucc
        exact hsucc.1 ▸ hn
      · split at hsucc
        · simp at hsucc
        · simp only [Prod.mk.injEq] at hsucc
          exact hsucc.1 ▸ hn
    | true =>
      obtain ⟨hp, -, l1, e, l2, hdec, hepid, -, hres, hnj⟩ := addjob_success hsucc
      have hej : e.jid = 0 := by
        have := hc e (hdec ▸ List.mem_append_right l1 (List.mem_cons_self e l2))
        rw [this hepid]; rfl
      have hmax : maxjid s'.jobs = max (maxjid s.jobs) s.nextjid := by
        rw [hres, hdec]
        exact maxjid_replace hej
      have h1 : maxjid s.jobs ≤ maxjid s'.jobs := hmax ▸ le_max_left _ _
      have h2 : s.nextjid ≤ maxjid s'.jobs := hmax ▸ le_max_right _ _
      have h3 : maxjid s'.jobs = maxjid s.jobs ∨ maxjid s'.jobs = s.nextjid :=
        hmax ▸ max_choice _ _
      show s'.nextjid = maxjid s'.jobs + 1 ∨ (s'.nextjid ≤ 16 ∧ 16 ≤ maxjid s'.jobs)
      rcases hn with hn | hn
      · by_cases hb : s.nextjid + 1 > 16
        · rw [hnj, if_pos hb]; right; constructor
          · omega
          · omega
        · rw [hnj, if_neg hb]; left; omega
      · by_cases hb : s.nextjid + 1 > 16
        · rw [hnj, if_pos hb]; right; omega
        · rw [hnj, if_neg hb]; right; omega
  | del p =>
    show NextJidInv (deletejob s p).1
    rcases hsucc : deletejob s p with ⟨s', ok⟩
    cases ok with
    | false =>
      unfold deletejob at hsucc
      split at hsucc
      · simp only [Prod.mk.injEq] at hsucc
        exact hsucc.1 ▸ hn
      · split at hsucc
        · simp at hsucc
        · simp only [Prod.mk.injEq] at hsucc
          exact hsucc.1 ▸ hn
    | true =>
      obtain ⟨-, -, -, -, -, -, -, -, hnj⟩ := deletejob_success hsucc
      exact Or.inl hnj

theorem inv_runOps {s : ShellSt} (hc : SlotsClear s) (hn : NextJidInv s)
    (ops : List Op) : SlotsClear (runOps s ops) ∧ NextJidInv (runOps s ops) := by
  induction ops generalizing s with
  | nil => exact ⟨hc, hn⟩
  | cons op rest ih =>
    have h1 := slotsClear_applyOp hc op
    have h2 := nextJidInv_applyOp hc hn op
    exact ih h1 h2

theorem initState_slotsClear : SlotsClear initState := by
  intro j hj _
  exact List.eq_of_mem_replicate hj

theorem initState_nextJidInv : NextJidInv initState := Or.inl (by decide)

theorem reachable_slotsClear {s : ShellSt} (h : Reachable s) : SlotsClear s := by
  obtain ⟨ops, rfl⟩ := h
  exact (inv_runOps initState_slotsClear initState_nextJidInv ops).1

theorem reachable_nextJidInv {s : ShellSt} (h : Reachable s) : NextJidInv s := by
  obtain ⟨ops, rfl⟩ := h
  exact (inv_runOps initState_slotsClear initState_nextJidInv ops).2

/-! ### Failure characterizations -/

/-- A failing `addjob` leaves the state unchanged. -/
theorem addjob_fail_state {s : ShellSt} {p st : Int} {c : String} {s' : ShellSt}
    {out : List String} (h : addjob s p st c = (s', false, out)) : s' = s := by
  unfold addjob at h
  split at h
  · simp only [Prod.mk.injEq] at h
    exact h.1.symm
  · split at h
    · simp at h
    · simp only [Prod.mk.injEq] at h
      exact h.1.symm

/-- A failing `deletejob` leaves the state unchanged. -/
theorem deletejob_fail_state {s : ShellSt} {p : Int} {s' : ShellSt}
    (h : deletejob s p = (s', false)) : s' = s := by
  unfold deletejob at h
  split at h
  · simp only [Prod.mk.injEq] at h
    exact h.1.symm
  · split at h
    · simp at h
    · simp only [Prod.mk.injEq] at h
      exact h.1.symm

/-! ### Preservation of the compound invariant under admissible operations -/

theorem tableInv_applyOp {s : ShellSt} (h : TableInv s) {op : Op}
    (hok : okOp s op = true) : TableInv (applyOp s op) := by
  obtain ⟨hclear, hpids, hfg⟩ := h
  have hclear' : SlotsClear (applyOp s op) := slotsClear_applyOp hclear op
  cases op with
  | add p st c =>
    rcases hsucc : addjob s p st c with ⟨s', ok, out⟩
    have happ : applyOp s (Op.add p st c) = s' := by
      show (addjob s p st c).1 = s'
      rw [hsucc]
    rw [happ] at hclear' ⊢
    cases ok with
    | false =>
      rw [addjob_fail_state hsucc]
      exact ⟨hclear, hpids, hfg⟩
    | true =>
      obtain ⟨hp, -, l1, e, l2, hdec, hepid, -, hres, -⟩ := addjob_success hsucc
      simp only [okOp, Bool.and_eq_true, Bool.or_eq_true, decide_eq_true_eq,
        Bool.not_eq_true', List.all_eq_true, beq_eq_false_iff_ne] at hok
      obtain ⟨hok1, hok2⟩ := hok
      refine ⟨hclear', ?_, ?_⟩
      · intro q hq
        have hnew : pidCount s'.jobs q =
            pidCount l1 q + (pidCount l2 q + (if p == q then 1 else 0)) := by
          rw [hres]
          simp [pidCount, List.countP_append, List.countP_cons]
        have hold : pidCount s.jobs q = pidCount l1 q + pidCount l2 q := by
          rw [hdec]
          have he0 : ((fun j => j.pid == q) e) = false := by
            simp only [hepid, beq_eq_false_iff_ne]
            omega
          simp [pidCount, List.countP_append, List.countP_cons, he0]
        by_cases hqp : q = p
        · subst hqp
          rcases hok1 with hlt | hall
          · omega
          · have hzero : pidCount s.jobs q = 0 := by
              simp only [pidCount, List.countP_eq_zero]
              intro j hj
              simpa using hall j hj
            rw [hold] at hzero
            rw [hnew, if_pos (by simp)]
            omega
        · have := hpids q hq
          rw [hold] at this
          rw [hnew, if_neg (by simpa using Ne.symm hqp)]
          omega
      · have hecl : e = clearedJob :=
          hclear e (hdec ▸ List.mem_append_right l1 (List.mem_cons_self e l2)) hepid
        have hnew : fgCount s'.jobs =
            fgCount l1 + (fgCount l2 + (if st == FG then 1 else 0)) := by
          rw [hres]
          simp [fgCount, List.countP_append, List.countP_cons]
        have hold : fgCount s.jobs = fgCount l1 + fgCount l2 := by
          rw [hdec]
          have he0 : ((fun j => j.state == FG) e) = false := by
            rw [hecl]
            decide
          simp [fgCount, List.countP_append, List.countP_cons, he0]
        by_cases hst : st = FG
        · rcases hok2 with hne | hall
          · exact absurd hst hne
          · have hzero : fgCount s.jobs = 0 := by
              simp only [fgCount, List.countP_eq_zero]
              intro j hj
              simpa using hall j hj
            rw [hold] at hzero
            rw [hnew, if_pos (by simpa using hst)]
            omega
        · have := hfg
          rw [hold] at this
          rw [hnew, if_neg (by simpa using hst)]
          omega
  | del p =>
    rcases hsucc : deletejob s p with ⟨s', ok⟩
    have happ : applyOp s (Op.del p) = s' := by
      show (deletejob s p).1 = s'
      rw [hsucc]
    rw [happ] at hclear' ⊢
    cases ok with
    | false =>
      rw [deletejob_fail_state hsucc]
      exact ⟨hclear, hpids, hfg⟩
    | true =>
      obtain ⟨hp, l1, e, l2, hdec, hepid, -, hres, -⟩ := deletejob_success hsucc
      refine ⟨hclear', ?_, ?_⟩
      · intro q hq
        have hnew : pidCount s'.jobs q = pidCount l1 q + pidCount l2 q := by
          rw [hres]
          have he0 : ((fun j => j.pid == q) clearedJob) = false := by
            simp only [clearedJob, beq_eq_false_iff_ne]
            omega
          simp [pidCount, List.countP_append, List.countP_cons, he0]
        have hold := hpids q hq
        have holdsplit : pidCount l1 q + pidCount l2 q ≤ pidCount s.jobs q := by
          rw [hdec]
          simp only [pidCount, List.countP_append, List.countP_cons]
          split
          · omega
          · omega
        rw [hnew]
        omega
      · have hnew : fgCount s'.jobs = fgCount l1 + fgCount l2 := by
          rw [hres]
          have he0 : ((fun j => j.state == FG) clearedJob) = false := by decide
          simp [fgCount, List.countP_append, List.countP_cons, he0]
        have holdsplit : fgCount l1 + fgCount l2 ≤ fgCount s.jobs := by
          rw [hdec]
          simp only [fgCount, List.countP_append, List.countP_cons]
          split
          · omega
          · omega
        rw [hnew]
        omega

theorem tableInv_runOps {s : ShellSt} (h : TableInv s) {ops : List Op}
    (hok : okSeq s ops = true) : TableInv (runOps s ops) := by
  induction ops generalizing s with
  | nil => exact h
  | cons op rest ih =>
    simp only [okSeq, Bool.and_eq_true] at hok
    exact ih (tableInv_applyOp h hok.1) hok.2

theorem initState_tableInv : TableInv initState := by
  refine ⟨initState_slotsClear, ?_, by decide⟩
  intro p hp
  have hz : pidCount initState.jobs p = 0 := by
    simp only [pidCount, List.countP_eq_zero]
    intro j hj
    have hj' := List.eq_of_mem_replicate hj
    subst hj'
    simp only [clearedJob, beq_iff_eq]
    omega
  omega

/-! ### Claim C1 -/

/-- Claim C1 (as frozen) is false on the code: `addjob` performs no
duplicate-pid check and no foreground-uniqueness check, so adding pid 5 in
state `FG` twice from the initialized table yields two non-empty entries
with pid 5 and two entries in state `Foreground`. -/
theorem claim_C1_cex :
    pidCount (runOps initState [Op.add 5 FG "c", Op.add 5 FG "c"]).jobs 5 = 2 ∧
    fgCount (runOps initState [Op.add 5 FG "c", Op.add 5 FG "c"]).jobs = 2 := by
  decide

/-- Claim C1 (amended): for every sequence of `addjob`/`deletejob`
operations from the initialized table in which each `addjob` uses a pid not
currently present (unless the call is the `pid < 1` no-op) and requests
state `Foreground` only when no job is currently in state `Foreground`,
the table never holds two non-empty entries with the same pid and never
holds two entries in state `Foreground`. -/
theorem claim_C1 (ops : List Op) (h : okSeq initState ops = true) :
    (∀ p : Int, p ≠ 0 → pidCount (runOps initState ops).jobs p ≤ 1) ∧
    fgCount (runOps initState ops).jobs ≤ 1 :=
  ⟨(tableInv_runOps initState_tableInv h).2.1,
   (tableInv_runOps initState_tableInv h).2.2⟩

/-- Witness for C1 at a concrete admissible sequence. -/
theorem claim_C1_witness :
    okSeq initState [Op.add 5 FG "c", Op.add 7 BG "d", Op.del 5] = true ∧
    ((∀ p : Int, p ≠ 0 →
        pidCount (runOps initState [Op.add 5 FG "c", Op.add 7 BG "d", Op.del 5]).jobs p ≤ 1) ∧
      fgCount (runOps initState [Op.add 5 FG "c", Op.add 7 BG "d", Op.del 5]).jobs ≤ 1) :=
  ⟨by decide, claim_C1 [Op.add 5 FG "c", Op.add 7 BG "d", Op.del 5] (by decide)⟩

/-! ### More scan lemmas -/

/-- `find?` returns the head of the first matching split. -/
theorem find?_first {f : job_t → Bool} {l1 : List job_t} {e : job_t}
    {l2 : List job_t} (h1 : ∀ x ∈ l1, f x = false) (he : f e = true) :
    (l1 ++ e :: l2).find? f = some e := by
  induction l1 with
  | nil => simp [List.find?_cons_of_pos, he]
  | cons x xs ih =>
    have hx : f x = false := h1 x (List.mem_cons_self x xs)
    rw [List.cons_append, List.find?_cons_of_neg _ (by simp [hx])]
    exact ih (fun y hy => h1 y (List.mem_cons_of_mem x hy))

/-- `deletejobAux` on a list split at the first pid match clears it. -/
theorem deletejobAux_split {l1 : List job_t} {e : job_t} {l2 : List job_t}
    {p : Int} (he : e.pid = p) (h1 : ∀ x ∈ l1, x.pid ≠ p) :
    deletejobAux (l1 ++ e :: l2) p = some (l1 ++ clearedJob :: l2) := by
  induction l1 with
  | nil => simp [deletejobAux, he]
  | cons x xs ih =>
    have hx : x.pid ≠ p := h1 x (List.mem_cons_self x xs)
    simp only [List.cons_append, deletejobAux, if_neg hx, List.append_eq]
    rw [ih (fun y hy => h1 y (List.mem_cons_of_mem x hy))]

/-- `addjobAux` on a list split at the first empty slot fills it. -/
theorem addjobAux_split {l1 : List job_t} {e : job_t} {l2 : List job_t}
    {p st : Int} {c : String} {nj : Int} (he : e.pid = 0)
    (h1 : ∀ x ∈ l1, x.pid ≠ 0) :
    addjobAux (l1 ++ e :: l2) p st c nj =
      some (l1 ++ (⟨p, nj, st, c⟩ : job_t) :: l2,
        if nj + 1 > 16 then 1 else nj + 1) := by
  induction l1 with
  | nil => simp [addjobAux, he]
  | cons x xs ih =>
    have hx : x.pid ≠ 0 := h1 x (List.mem_cons_self x xs)
    simp only [List.cons_append, addjobAux, if_neg hx, List.append_eq]
    rw [ih (fun y hy => h1 y (List.mem_cons_of_mem x hy))]

/-- Updating the state of the looked-up job is visible to a subsequent
lookup of the same pid. -/
theorem getjobpid_setStatePid_self {l : List job_t} {p st : Int} {job : job_t}
    (h : getjobpid l p = some job) :
    getjobpid (setStatePid l p st) p = some { job with state := st } := by
  obtain ⟨hp, hpid, l1, l2, hdec, hl1⟩ := getjobpid_eq_some h
  rw [hdec, setStatePid_split hpid hl1]
  unfold getjobpid
  rw [if_neg (by omega)]
  apply find?_first
  · intro x hx
    exact beq_eq_false_iff_ne.mpr (hl1 x hx)
  · simp [hpid]

/-! ### Claim C3 -/

/-- Claim C3 (as frozen) is false on the code: after filling all 16 slots
(jids 1..16, which wraps the counter to 1) and deleting the job with jid 1,
`deletejob` recomputes `nextjid = maxjid + 1 = 17` without any wraparound,
so the next `addjob` assigns jid 17 even though `1 + max(jids) = 17`
exceeds the capacity 16 and the claim requires the assigned jid to wrap
to 1. -/
theorem claim_C3_cex :
    (let s := runOps initState
        [Op.add 1 BG "c", Op.add 2 BG "c", Op.add 3 BG "c", Op.add 4 BG "c",
         Op.add 5 BG "c", Op.add 6 BG "c", Op.add 7 BG "c", Op.add 8 BG "c",
         Op.add 9 BG "c", Op.add 10 BG "c", Op.add 11 BG "c", Op.add 12 BG "c",
         Op.add 13 BG "c", Op.add 14 BG "c", Op.add 15 BG "c", Op.add 16 BG "c",
         Op.del 1];
      maxjid s.jobs = 16 ∧ s.nextjid = 17 ∧
        (addjob s 17 BG "x").2.1 = true ∧
        getjobpid (addjob s 17 BG "x").1.jobs 17 =
          some (⟨17, 17, BG, "x"⟩ : job_t)) := by
  decide

/-- Claim C3 (amended): on every reachable state, a successful `addjob`
fills a slot with a job whose jid is the current `nextjid`, and that value
is either `1 + max(jid of present jobs)` — with no capacity ceiling, so it
can exceed 16 — or, transiently after the counter wrapped (possible only
once the maximum jid is at least 16), a value at most 16 (which may even
duplicate a live jid). -/
theorem claim_C3 {s : ShellSt} (hreach : Reachable s) {p st : Int}
    {c : String} (hsucc : (addjob s p st c).2.1 = true) :
    (∃ j ∈ (addjob s p st c).1.jobs, j.pid = p ∧ j.jid = s.nextjid) ∧
    (s.nextjid = maxjid s.jobs + 1 ∨ (s.nextjid ≤ 16 ∧ 16 ≤ maxjid s.jobs)) := by
  rcases h : addjob s p st c with ⟨s', ok, out⟩
  rw [h] at hsucc
  simp only at hsucc
  subst hsucc
  obtain ⟨hp, -, l1, e, l2, hdec, hepid, hl1, hres, -⟩ := addjob_success h
  constructor
  · refine ⟨⟨p, s.nextjid, st, c⟩, ?_, rfl, rfl⟩
    show (⟨p, s.nextjid, st, c⟩ : job_t) ∈ s'.jobs
    rw [hres]
    exact List.mem_append_right l1 (List.mem_cons_self _ l2)
  · exact reachable_nextJidInv hreach

/-- Witness for C3 at the initialized table. -/
theorem claim_C3_witness :
    Reachable initState ∧ (addjob initState 5 BG "x").2.1 = true ∧
    ((∃ j ∈ (addjob initState 5 BG "x").1.jobs, j.pid = 5 ∧ j.jid = initState.nextjid) ∧
      (initState.nextjid = maxjid initState.jobs + 1 ∨
        (initState.nextjid ≤ 16 ∧ 16 ≤ maxjid initState.jobs))) :=
  ⟨⟨[], rfl⟩, by decide, claim_C3 ⟨[], rfl⟩ (by decide)⟩

/-! ### Claim C9 -/

/-- Claim C9 (as frozen) is false on the code: in the reachable full-table
state with jids 1..16 (where the counter has wrapped to 1), pid 17 is
absent, and `addjob 17` (which fails: table full) followed by
`deletejob 17` (which fails: pid absent) leaves `nextjid = 1`, while the
claim requires `max(jid of remaining jobs) + 1 = 17`. -/
theorem claim_C9_cex :
    (let s := runOps initState
        [Op.add 1 BG "c", Op.add 2 BG "c", Op.add 3 BG "c", Op.add 4 BG "c",
         Op.add 5 BG "c", Op.add 6 BG "c", Op.add 7 BG "c", Op.add 8 BG "c",
         Op.add 9 BG "c", Op.add 10 BG "c", Op.add 11 BG "c", Op.add 12 BG "c",
         Op.add 13 BG "c", Op.add 14 BG "c", Op.add 15 BG "c", Op.add 16 BG "c"];
      getjobpid s.jobs 17 = none ∧
        (deletejob (addjob s 17 BG "x").1 17).1.jobs = s.jobs ∧
        (deletejob (addjob s 17 BG "x").1 17).1.nextjid = 1 ∧
        maxjid (deletejob (addjob s 17 BG "x").1 17).1.jobs + 1 = 17) := by
  decide

/-- Claim C9 (amended): on every reachable state, for every pid ≥ 1 not in
the table, provided the table has an empty slot (so the add succeeds),
`addjob` followed immediately by `deletejob` of that pid restores every
slot to its pre-add value and leaves `nextjid = max(jid of the remaining
jobs) + 1`. -/
theorem claim_C9 {s : ShellSt} (hreach : Reachable s) {p : Int} (hp : 1 ≤ p)
    (hfresh : ∀ j ∈ s.jobs, j.pid ≠ p) (hroom : ∃ j ∈ s.jobs, j.pid = 0)
    (st : Int) (c : String) :
    (deletejob (addjob s p st c).1 p).1.jobs = s.jobs ∧
    (deletejob (addjob s p st c).1 p).1.nextjid = maxjid s.jobs + 1 := by
  have hp' : ¬(p < 1) := by omega
  obtain ⟨e0, he0mem, he0pid⟩ := hroom
  cases haux : addjobAux s.jobs p st c s.nextjid with
  | none => exact absurd he0pid (addjobAux_eq_none.1 haux e0 he0mem)
  | some pr =>
    rcases pr with ⟨lres, njres⟩
    have hadd : addjob s p st c = (⟨lres, njres⟩, true, []) := by
      unfold addjob
      rw [if_neg hp', haux]
    obtain ⟨l1, e, l2, hdec, hepid, hl1, hres, -⟩ := addjobAux_eq_some haux
    have hecl : e = clearedJob :=
      reachable_slotsClear hreach e
        (hdec ▸ List.mem_append_right l1 (List.mem_cons_self e l2)) hepid
    have hlist : l1 ++ clearedJob :: l2 = s.jobs := by
      rw [hdec, hecl]
    have hdelAux : deletejobAux lres p = some (l1 ++ clearedJob :: l2) := by
      rw [hres]
      exact deletejobAux_split rfl
        (fun x hx => hfresh x (hdec ▸ List.mem_append_left _ hx))
    have hdel : deletejob ⟨lres, njres⟩ p =
        (⟨s.jobs, maxjid s.jobs + 1⟩, true) := by
      unfold deletejob
      rw [if_neg hp']
      dsimp only
      rw [hdelAux, hlist]
    rw [hadd]
    dsimp only
    rw [hdel]
    exact ⟨rfl, rfl⟩

/-- Witness for C9 at the initialized table. -/
theorem claim_C9_witness :
    (1 : Int) ≤ 5 ∧ (∀ j ∈ initState.jobs, j.pid ≠ (5 : Int)) ∧
    (∃ j ∈ initState.jobs, j.pid = 0) ∧
    ((deletejob (addjob initState 5 BG "x").1 5).1.jobs = initState.jobs ∧
      (deletejob (addjob initState 5 BG "x").1 5).1.nextjid =
        maxjid initState.jobs + 1) :=
  ⟨by decide, by decide, by decide,
    claim_C9 ⟨[], rfl⟩ (by decide) (by decide) (by decide) BG "x"⟩

/-! ### Claim C8 -/

/-- Claim C8 (confirmed): `addjob` fails without any mutation when
`pid < 1` (silently) or when no empty slot exists (printing exactly
`"Tried to create too many jobs"`); when it succeeds it fills the first
empty slot in slot order. -/
theorem claim_C8 (s : ShellSt) (p st : Int) (c : String) :
    (p < 1 → addjob s p st c = (s, false, [])) ∧
    (1 ≤ p → (∀ j ∈ s.jobs, j.pid ≠ 0) →
      addjob s p st c = (s, false, ["Tried to create too many jobs\n"])) ∧
    (1 ≤ p → (∃ j ∈ s.jobs, j.pid = 0) →
      ∃ l1 e l2, s.jobs = l1 ++ e :: l2 ∧ e.pid = 0 ∧ (∀ x ∈ l1, x.pid ≠ 0) ∧
        addjob s p st c =
          (⟨l1 ++ (⟨p, s.nextjid, st, c⟩ : job_t) :: l2,
            if s.nextjid + 1 > 16 then 1 else s.nextjid + 1⟩, true, [])) := by
  refine ⟨?_, ?_, ?_⟩
  · intro hp
    unfold addjob
    rw [if_pos hp]
  · intro hp hfull
    unfold addjob
    rw [if_neg (by omega), addjobAux_eq_none.2 hfull]
  · intro hp hroom
    obtain ⟨e0, he0mem, he0pid⟩ := hroom
    cases haux : addjobAux s.jobs p st c s.nextjid with
    | none => exact absurd he0pid (addjobAux_eq_none.1 haux e0 he0mem)
    | some pr =>
      rcases pr with ⟨lres, njres⟩
      obtain ⟨l1, e, l2, hdec, hepid, hl1, hres, hnj⟩ := addjobAux_eq_some haux
      refine ⟨l1, e, l2, hdec, hepid, hl1, ?_⟩
      unfold addjob
      rw [if_neg (by omega), haux, hres, hnj]

/-- Witness for C8: successful insertion into the first slot of the
initialized table. -/
theorem claim_C8_witness :
    (1 : Int) ≤ 5 ∧ (∃ j ∈ initState.jobs, j.pid = 0) ∧
    (∃ l1 e l2, initState.jobs = l1 ++ e :: l2 ∧ e.pid = 0 ∧
      (∀ x ∈ l1, x.pid ≠ 0) ∧
      addjob initState 5 BG "x" =
        (⟨l1 ++ (⟨5, initState.nextjid, BG, "x"⟩ : job_t) :: l2,
          if initState.nextjid + 1 > 16 then 1 else initState.nextjid + 1⟩,
          true, [])) :=
  ⟨by decide, by decide, (claim_C8 initState 5 BG "x").2.2 (by decide) (by decide)⟩

/-! ### Claim C7 -/

/-- Claim C7 (confirmed): the `quit` built-in refuses to exit and prints a
diagnostic, leaving the table unchanged, whenever some job is `Stopped`;
with no stopped job it terminates the shell (`exit(0)`). -/
theorem claim_C7 (s : ShellSt) :
    ((∃ j ∈ s.jobs, j.state = ST) →
      builtin_cmd "quit" none s =
        (BRes.handled, s, [Eff.print "there are stopped jobs\n"])) ∧
    ((∀ j ∈ s.jobs, j.state ≠ ST) →
      builtin_cmd "quit" none s = (BRes.exitSh, s, [])) := by
  constructor
  · intro hex
    obtain ⟨j, hj, hjst⟩ := hex
    unfold builtin_cmd
    rw [if_pos ⟨rfl, rfl⟩]
    have hsome : (s.jobs.find? (fun j => j.state == ST)).isSome := by
      rw [List.find?_isSome]
      exact ⟨j, hj, by simp [hjst]⟩
    cases hfind : s.jobs.find? (fun j => j.state == ST) with
    | none => rw [hfind] at hsome; simp at hsome
    | some x => rfl
  · intro hall
    unfold builtin_cmd
    rw [if_pos ⟨rfl, rfl⟩]
    have hnone : s.jobs.find? (fun j => j.state == ST) = none := by
      rw [List.find?_eq_none]
      intro x hx
      simpa using hall x hx
    rw [hnone]

/-- Witness for C7: `quit` on the empty table exits, and on a table with a
stopped job it refuses. -/
theorem claim_C7_witness :
    (∀ j ∈ initState.jobs, j.state ≠ ST) ∧
    builtin_cmd "quit" none initState = (BRes.exitSh, initState, []) :=
  ⟨by decide, (claim_C7 initState).2 (by decide)⟩

/-! ### Claim C10 -/

/-- Claim C10 (confirmed): a line whose first token is `quit` with a second
argument present is classified as not built-in (`builtin_cmd` returns 0
with no output, no exit), and `eval` hands it to the fork/exec launcher. -/
theorem claim_C10 (arg : String) (rest : List String) (s : ShellSt) :
    builtin_cmd "quit" (some arg) s = (BRes.notBuiltin, s, []) ∧
    evalClass ("quit" :: arg :: rest) s = EvalClass.launch := by
  have h1 : builtin_cmd "quit" (some arg) s = (BRes.notBuiltin, s, []) := by
    unfold builtin_cmd
    rw [if_neg (by simp), if_neg (by decide), if_neg (by decide)]
  refine ⟨h1, ?_⟩
  show (if (builtin_cmd "quit" (arg :: rest).head? s).1 = BRes.notBuiltin then
      EvalClass.launch else EvalClass.builtin) = EvalClass.launch
  rw [show (arg :: rest).head? = some arg from rfl, h1]
  rfl

/-! ### Claim C6 -/

/-- Claim C6 (as frozen) is false on the code: the source format strings are
`"%d : No such process\n "` and `"%%%d : No such Job\n "`, which put a
space before the colon (and a stray trailing space), while the claim
requires exactly `"99999: No such process"`. -/
theorem claim_C6_cex :
    (do_bgfg "bg" (some "99999") initState).2 =
      [Eff.print "99999 : No such process\n "] ∧
    (do_bgfg "bg" (some "99999") initState).1 = initState ∧
    (do_bgfg "bg" (some "99999") initState).2 ≠
      [Eff.print "99999: No such process\n"] := by
  decide

/-- Claim C6 (amended): a well-formed target that resolves to no job makes
the dispatcher print exactly `"<pid> : No such process"` (space before the
colon, newline plus a trailing space) for a pid target, or
`"%<jid> : No such Job"` likewise for a `%jid` target, with no table
mutation. -/
theorem claim_C6 (cmd : String) (s : ShellSt) (r : Int) :
    (getjobpid s.jobs r = none →
      bgfgAct cmd r false s =
        (s, [Eff.print (toString r ++ " : No such process\n ")])) ∧
    (getjobjid s.jobs r = none →
      bgfgAct cmd r true s =
        (s, [Eff.print ("%" ++ toString r ++ " : No such Job\n ")])) := by
  constructor
  · intro h
    unfold bgfgAct
    rw [if_pos rfl, h]
  · intro h
    unfold bgfgAct
    rw [if_neg (by decide), h]

/-- Witness for C6: `bg 99999` on the empty table. -/
theorem claim_C6_witness :
    getjobpid initState.jobs 99999 = none ∧
    bgfgAct "bg" 99999 false initState =
      (initState, [Eff.print (toString (99999 : Int) ++ " : No such process\n ")]) :=
  ⟨by decide, (claim_C6 "bg" initState 99999).1 (by decide)⟩

/-! ### Claim C2 -/

/-- After `temp->state = UNDEF; deletejob(jobs, pid)` (the reap path of the
SIGCHLD handler), a pid that occurred in at most one slot is gone from the
table. -/
theorem getjobpid_after_delete {s : ShellSt} {p : Int} {job : job_t}
    (h : getjobpid s.jobs p = some job) (huniq : pidCount s.jobs p ≤ 1) :
    getjobpid (deletejob ⟨setStatePid s.jobs p UNDEF, s.nextjid⟩ p).1.jobs p =
      none := by
  obtain ⟨hp, hpid, l1, l2, hdec, hl1⟩ := getjobpid_eq_some h
  have hset : setStatePid s.jobs p UNDEF =
      l1 ++ { job with state := UNDEF } :: l2 := by
    rw [hdec]
    exact setStatePid_split hpid hl1
  have hcount : pidCount s.jobs p =
      List.countP (fun j => j.pid == p) l1 +
        (List.countP (fun j => j.pid == p) l2 + 1) := by
    rw [hdec]
    simp [pidCount, List.countP_append, List.countP_cons, hpid]
  have hzero : List.countP (fun j => j.pid == p) l2 = 0 := by omega
  have hl2 : ∀ x ∈ l2, x.pid ≠ p := by
    intro x hx
    have := List.countP_eq_zero.1 hzero x hx
    simpa using this
  have hdelAux : deletejobAux (l1 ++ { job with state := UNDEF } :: l2) p =
      some (l1 ++ clearedJob :: l2) :=
    deletejobAux_split (by simpa using hpid) hl1
  have hjobs : (deletejob ⟨setStatePid s.jobs p UNDEF, s.nextjid⟩ p).1.jobs =
      l1 ++ clearedJob :: l2 := by
    unfold deletejob
    rw [if_neg (by omega)]
    dsimp only
    rw [hset, hdelAux]
  rw [hjobs]
  unfold getjobpid
  rw [if_neg (by omega)]
  apply List.find?_eq_none.2
  intro x hx
  rcases List.mem_append.1 hx with hx1 | hx2
  · simpa using hl1 x hx1
  · rcases List.mem_cons.1 hx2 with rfl | hx3
    · simp only [clearedJob, beq_iff_eq]
      omega
    · simpa using hl2 x hx3

/-- Claim C2 (amended): for a reaped child whose pid occupies (at most) one
slot: a signal-terminated child is removed and the handler prints exactly
`"Job [jid] (pid) terminated by signal 2"` — the literal number 2,
regardless of the actual terminating signal; a normally exited child is
removed with no output; a stopped child's slot switches to `Stopped`
without removal, printing `"Job [jid] (pid) stopped by signal 20"` — the
literal number 20, regardless of the actual stopping signal. -/
theorem claim_C2 (s : ShellSt) (p : Int) (job : job_t) (n code : Int)
    (h : getjobpid s.jobs p = some job) (huniq : pidCount s.jobs p ≤ 1) :
    ((sigchldStep s p (CStatus.signaled n)).2 =
        ["Job [" ++ toString job.jid ++ "] (" ++ toString p ++
          ") terminated by signal 2"] ∧
      getjobpid (sigchldStep s p (CStatus.signaled n)).1.jobs p = none) ∧
    ((sigchldStep s p (CStatus.exited code)).2 = [] ∧
      getjobpid (sigchldStep s p (CStatus.exited code)).1.jobs p = none) ∧
    ((sigchldStep s p (CStatus.stopped n)).2 =
        ["Job [" ++ toString job.jid ++ "] (" ++ toString p ++
          ") stopped by signal 20\n"] ∧
      getjobpid (sigchldStep s p (CStatus.stopped n)).1.jobs p =
        some { job with state := ST }) := by
  have hjid := pid2jid_eq_of_getjobpid h
  refine ⟨⟨?_, ?_⟩, ⟨rfl, ?_⟩, ⟨?_, ?_⟩⟩
  · simp only [sigchldStep, hjid]
  · exact getjobpid_after_delete h huniq
  · exact getjobpid_after_delete h huniq
  · simp only [sigchldStep, hjid]
  · exact getjobpid_setStatePid_self h

/-- Claim C2 (as frozen) is false on the code: the handler prints the
hard-coded signal number 2 (resp. 20), not the actual signal; a child of
the reachable one-job table terminated by signal 9 is reported as
`"terminated by signal 2"`. -/
theorem claim_C2_cex :
    (sigchldStep (runOps initState [Op.add 5 BG "c"]) 5 (CStatus.signaled 9)).2 =
      ["Job [1] (5) terminated by signal 2"] ∧
    ("Job [1] (5) terminated by signal 2" : String) ≠
      "Job [1] (5) terminated by signal 9" := by
  decide

/-- Witness for C2 at the reachable one-job table. -/
theorem claim_C2_witness :
    getjobpid (runOps initState [Op.add 5 BG "c"]).jobs 5 =
      some (⟨5, 1, BG, "c"⟩ : job_t) ∧
    pidCount (runOps initState [Op.add 5 BG "c"]).jobs 5 ≤ 1 ∧
    (((sigchldStep (runOps initState [Op.add 5 BG "c"]) 5 (CStatus.signaled 9)).2 =
        ["Job [" ++ toString (1 : Int) ++ "] (" ++ toString (5 : Int) ++
          ") terminated by signal 2"] ∧
      getjobpid (sigchldStep (runOps initState [Op.add 5 BG "c"]) 5
          (CStatus.signaled 9)).1.jobs 5 = none) ∧
    ((sigchldStep (runOps initState [Op.add 5 BG "c"]) 5 (CStatus.exited 0)).2 = [] ∧
      getjobpid (sigchldStep (runOps initState [Op.add 5 BG "c"]) 5
          (CStatus.exited 0)).1.jobs 5 = none) ∧
    ((sigchldStep (runOps initState [Op.add 5 BG "c"]) 5 (CStatus.stopped 20)).2 =
        ["Job [" ++ toString (1 : Int) ++ "] (" ++ toString (5 : Int) ++
          ") stopped by signal 20\n"] ∧
      getjobpid (sigchldStep (runOps initState [Op.add 5 BG "c"]) 5
          (CStatus.stopped 20)).1.jobs 5 = some (⟨5, 1, ST, "c"⟩ : job_t))) :=
  ⟨by decide, by decide,
    claim_C2 (runOps initState [Op.add 5 BG "c"]) 5 ⟨5, 1, BG, "c"⟩ 9 0
      (by decide) (by decide)⟩

/-! ### Claim C4 -/

/-- A pid present in the table yields a slot index for `waitfg`'s captured
pointer. -/
theorem getjobpidIdx_isSome {l : List job_t} {p : Int} {x : job_t}
    (hp : 1 ≤ p) (hx : x ∈ l) (hxp : x.pid = p) :
    ∃ i, getjobpidIdx l p = some i := by
  unfold getjobpidIdx
  rw [if_neg (by omega)]
  refine ⟨l.findIdx (fun j => j.pid == p), ?_⟩
  apply List.findIdx?_eq_some_of_exists
  exact ⟨x, hx, beq_iff_eq.mpr hxp⟩

/-- Claim C4 (confirmed): `fg` on a `Stopped` job — whether targeted by pid
or by `%jid` — sets its state to `Foreground`, sends `SIGCONT` to the whole
process group via `kill(-pid, SIGCONT)`, then calls `waitfg(pid)`; and
`waitfg` returns (at poll step `n` of any table trace) only once the
captured table entry is no longer in state `Foreground`. -/
theorem claim_C4 (s : ShellSt) :
    (∀ r job, getjobpid s.jobs r = some job → job.state = ST →
      (bgfgAct "fg" r false s).1.jobs = setStatePid s.jobs r FG ∧
      getjobpid (bgfgAct "fg" r false s).1.jobs r =
        some { job with state := FG } ∧
      (bgfgAct "fg" r false s).2 =
        [Eff.print ("JOB [" ++ toString (pid2jid s.jobs r) ++ "] (" ++
            toString r ++ ") " ++ toString job.state ++ "\n"),
          Eff.kill (-r) SIGCONT, Eff.waitE r] ∧
      (∀ trace nn, waitfgReturns r (bgfgAct "fg" r false s).1.jobs trace nn →
        ∃ i, getjobpidIdx (bgfgAct "fg" r false s).1.jobs r = some i ∧
          slotFG (trace nn) i = false)) ∧
    (∀ jid job, getjobjid s.jobs jid = some job → job.state = ST →
      1 ≤ job.pid →
      (bgfgAct "fg" jid true s).1.jobs = setStateJid s.jobs jid FG ∧
      (bgfgAct "fg" jid true s).2 =
        [Eff.kill (-job.pid) SIGCONT, Eff.waitE job.pid] ∧
      (∀ trace nn,
        waitfgReturns job.pid (bgfgAct "fg" jid true s).1.jobs trace nn →
        ∃ i, getjobpidIdx (bgfgAct "fg" jid true s).1.jobs job.pid = some i ∧
          slotFG (trace nn) i = false)) := by
  constructor
  · intro r job hfind hst
    obtain ⟨hp, hpid, l1, l2, hdec, hl1⟩ := getjobpid_eq_some hfind
    have hbg : bgfgAct "fg" r false s =
        (⟨setStatePid s.jobs r FG, s.nextjid⟩,
          [Eff.print ("JOB [" ++ toString (pid2jid s.jobs r) ++ "] (" ++
              toString r ++ ") " ++ toString job.state ++ "\n"),
            Eff.kill (-r) SIGCONT, Eff.waitE r]) := by
      unfold bgfgAct
      rw [if_pos rfl, hfind]
      dsimp only
      rw [if_neg (fun hc => absurd hc.2 (by decide)), if_pos ⟨hst, rfl⟩]
    refine ⟨?_, ?_, ?_, ?_⟩
    · rw [hbg]
    · rw [hbg]
      exact getjobpid_setStatePid_self hfind
    · rw [hbg]
    · intro trace nn hret
      rw [hbg] at hret ⊢
      have hmem : ({ job with state := FG } : job_t) ∈ setStatePid s.jobs r FG := by
        rw [hdec, setStatePid_split hpid hl1]
        exact List.mem_append_right _ (List.mem_cons_self _ _)
      obtain ⟨i, hi⟩ := getjobpidIdx_isSome hp hmem
        (show ({ job with state := FG } : job_t).pid = r from hpid)
      refine ⟨i, hi, ?_⟩
      unfold waitfgReturns at hret
      simp only [hi] at hret
      exact hret.1
  · intro jid job hfind hst hpidpos
    obtain ⟨hj1, hjid, l1, l2, hdec, hl1⟩ := getjobjid_eq_some hfind
    have hbg : bgfgAct "fg" jid true s =
        (⟨setStateJid s.jobs jid FG, s.nextjid⟩,
          [Eff.kill (-job.pid) SIGCONT, Eff.waitE job.pid]) := by
      unfold bgfgAct
      rw [if_neg (by decide), hfind]
      dsimp only
      rw [if_neg (fun hc => absurd hc.2 (by decide)), if_pos ⟨hst, rfl⟩]
    refine ⟨?_, ?_, ?_⟩
    · rw [hbg]
    · rw [hbg]
    · intro trace nn hret
      rw [hbg] at hret ⊢
      have hmem : ({ job with state := FG } : job_t) ∈ setStateJid s.jobs jid FG := by
        rw [hdec, setStateJid_split hjid hl1]
        exact List.mem_append_right _ (List.mem_cons_self _ _)
      obtain ⟨i, hi⟩ := getjobpidIdx_isSome hpidpos hmem rfl
      refine ⟨i, hi, ?_⟩
      unfold waitfgReturns at hret
      simp only [hi] at hret
      exact hret.1

/-- Witness for C4: `fg` by pid on a table whose first slot holds stopped
pid 3. -/
theorem claim_C4_witness :
    getjobpid ((⟨3, 1, ST, "c"⟩ : job_t) :: List.replicate 15 clearedJob) 3 =
      some (⟨3, 1, ST, "c"⟩ : job_t) ∧
    ((bgfgAct "fg" 3 false
        ⟨(⟨3, 1, ST, "c"⟩ : job_t) :: List.replicate 15 clearedJob, 2⟩).1.jobs =
      setStatePid ((⟨3, 1, ST, "c"⟩ : job_t) :: List.replicate 15 clearedJob) 3 FG ∧
    getjobpid (bgfgAct "fg" 3 false
        ⟨(⟨3, 1, ST, "c"⟩ : job_t) :: List.replicate 15 clearedJob, 2⟩).1.jobs 3 =
      some (⟨3, 1, FG, "c"⟩ : job_t) ∧
    (bgfgAct "fg" 3 false
        ⟨(⟨3, 1, ST, "c"⟩ : job_t) :: List.replicate 15 clearedJob, 2⟩).2 =
      [Eff.print ("JOB [" ++ toString (pid2jid
          ((⟨3, 1, ST, "c"⟩ : job_t) :: List.replicate 15 clearedJob) 3) ++
          "] (" ++ toString (3 : Int) ++ ") " ++ toString (ST : Int) ++ "\n"),
        Eff.kill (-3) SIGCONT, Eff.waitE 3] ∧
    (∀ trace nn, waitfgReturns 3 (bgfgAct "fg" 3 false
          ⟨(⟨3, 1, ST, "c"⟩ : job_t) :: List.replicate 15 clearedJob, 2⟩).1.jobs
          trace nn →
      ∃ i, getjobpidIdx (bgfgAct "fg" 3 false
          ⟨(⟨3, 1, ST, "c"⟩ : job_t) :: List.replicate 15 clearedJob, 2⟩).1.jobs
          3 = some i ∧ slotFG (trace nn) i = false)) :=
  ⟨by decide,
    (claim_C4 ⟨(⟨3, 1, ST, "c"⟩ : job_t) :: List.replicate 15 clearedJob, 2⟩).1
      3 ⟨3, 1, ST, "c"⟩ (by decide) rfl⟩

/-! ### Arithmetic of the digit-count validation -/

theorem cdGo_fuel {f1 : Nat} : ∀ {f2 n : Nat}, n ≤ f1 → n ≤ f2 →
    cdGo n f1 = cdGo n f2 := by
  induction f1 with
  | zero =>
    intro f2 n h1 h2
    have hn : n = 0 := Nat.le_zero.1 h1
    subst hn
    cases f2 with
    | zero => rfl
    | succ f => simp [cdGo]
  | succ f ih =>
    intro f2 n h1 h2
    cases f2 with
    | zero =>
      have hn : n = 0 := Nat.le_zero.1 h2
      subst hn
      simp [cdGo]
    | succ g =>
      by_cases hn : n = 0
      · subst hn
        simp [cdGo]
      · simp only [cdGo, if_neg hn]
        have hdiv : n / 10 < n := Nat.div_lt_self (Nat.pos_of_ne_zero hn) (by norm_num)
        congr 1
        exact ih (by omega) (by omega)

theorem countDigitsNat_zero : countDigitsNat 0 = 0 := rfl

theorem countDigitsNat_succ {n : Nat} (h : n ≠ 0) :
    countDigitsNat n = countDigitsNat (n / 10) + 1 := by
  cases n with
  | zero => exact absurd rfl h
  | succ m =>
    show cdGo (m + 1) (m + 1) = cdGo ((m + 1) / 10) ((m + 1) / 10) + 1
    rw [show cdGo (m + 1) (m + 1) =
      if m + 1 = 0 then 0 else cdGo ((m + 1) / 10) m + 1 from rfl]
    rw [if_neg (Nat.succ_ne_zero m)]
    have hdiv : (m + 1) / 10 < m + 1 := Nat.div_lt_self (Nat.succ_pos m) (by norm_num)
    congr 1
    exact cdGo_fuel (by omega) (Nat.le_refl _)

theorem countDigitsNat_le_iff : ∀ (k : Nat) {n : Nat},
    countDigitsNat n ≤ k ↔ n < 10 ^ k := by
  intro k
  induction k with
  | zero =>
    intro n
    constructor
    · intro h
      by_cases hn : n = 0
      · subst hn; norm_num
      · rw [countDigitsNat_succ hn] at h; omega
    · intro h
      have hn : n = 0 := by
        have : (10 : Nat) ^ 0 = 1 := by norm_num
        omega
      subst hn
      simp [countDigitsNat_zero]
  | succ k ih =>
    intro n
    by_cases hn : n = 0
    · subst hn
      constructor
      · intro _
        exact Nat.pos_pow_of_pos _ (by norm_num)
      · intro _
        simp [countDigitsNat_zero]
    · rw [countDigitsNat_succ hn]
      have h10 : (0 : Nat) < 10 := by norm_num
      constructor
      · intro h
        have h2 : countDigitsNat (n / 10) ≤ k := by omega
        have h3 : n / 10 < 10 ^ k := ih.1 h2
        have h4 := (Nat.div_lt_iff_lt_mul h10).1 h3
        calc n < 10 ^ k * 10 := h4
          _ = 10 ^ (k + 1) := by ring
      · intro h
        have h3 : n / 10 < 10 ^ k := by
          rw [Nat.div_lt_iff_lt_mul h10]
          calc n < 10 ^ (k + 1) := h
            _ = 10 ^ k * 10 := by ring
        have := ih.2 h3
        omega

theorem isDigitC_bounds {c : Char} (h : isDigitC c = true) :
    48 ≤ c.toNat ∧ c.toNat ≤ 57 := by
  simp only [isDigitC, Bool.and_eq_true, decide_eq_true_eq] at h
  exact h

theorem char_eq_of_toNat_48 {c : Char} (h : c.toNat = 48) : c = '0' := by
  calc c = Char.ofNat c.toNat := (Char.ofNat_toNat c).symm
    _ = Char.ofNat 48 := by rw [h]
    _ = '0' := by decide

theorem digitsVal_lt : ∀ (cs : List Char) (acc : Nat),
    digitsVal cs acc < (acc + 1) * 10 ^ cs.length := by
  intro cs
  induction cs with
  | nil =>
    intro acc
    simp [digitsVal]
  | cons c rest ih =>
    intro acc
    by_cases hc : isDigitC c = true
    · rw [show digitsVal (c :: rest) acc =
        digitsVal rest (acc * 10 + (c.toNat - 48)) from by simp [digitsVal, hc]]
      have hd : c.toNat - 48 ≤ 9 := by
        have := isDigitC_bounds hc
        omega
      have h1 := ih (acc * 10 + (c.toNat - 48))
      have h2 : (acc * 10 + (c.toNat - 48) + 1) * 10 ^ rest.length ≤
          (acc + 1) * 10 ^ (rest.length + 1) := by
        have h3 : acc * 10 + (c.toNat - 48) + 1 ≤ (acc + 1) * 10 := by omega
        calc (acc * 10 + (c.toNat - 48) + 1) * 10 ^ rest.length
            ≤ ((acc + 1) * 10) * 10 ^ rest.length := Nat.mul_le_mul_right _ h3
          _ = (acc + 1) * 10 ^ (rest.length + 1) := by ring
      simp only [List.length_cons]
      omega
    · rw [show digitsVal (c :: rest) acc = acc from by simp [digitsVal, hc]]
      have hpow : 0 < 10 ^ (c :: rest).length := by positivity
      calc acc < acc + 1 := Nat.lt_succ_self acc
        _ ≤ (acc + 1) * 10 ^ (c :: rest).length := Nat.le_mul_of_pos_right _ hpow

theorem digitsVal_ge : ∀ (cs : List Char) (acc : Nat),
    (∀ c ∈ cs, isDigitC c = true) → acc * 10 ^ cs.length ≤ digitsVal cs acc := by
  intro cs
  induction cs with
  | nil =>
    intro acc _
    simp [digitsVal]
  | cons c rest ih =>
    intro acc hall
    have hc : isDigitC c = true := hall c (List.mem_cons_self c rest)
    rw [show digitsVal (c :: rest) acc =
      digitsVal rest (acc * 10 + (c.toNat - 48)) from by simp [digitsVal, hc]]
    have h1 := ih (acc * 10 + (c.toNat - 48))
      (fun x hx => hall x (List.mem_cons_of_mem c hx))
    have h2 : acc * 10 ^ (rest.length + 1) ≤
        (acc * 10 + (c.toNat - 48)) * 10 ^ rest.length := by
      have h3 : acc * 10 ≤ acc * 10 + (c.toNat - 48) := Nat.le_add_right _ _
      calc acc * 10 ^ (rest.length + 1) = (acc * 10) * 10 ^ rest.length := by ring
        _ ≤ (acc * 10 + (c.toNat - 48)) * 10 ^ rest.length :=
          Nat.mul_le_mul_right _ h3
    simp only [List.length_cons]
    omega

theorem digitsVal_takeWhile : ∀ (cs : List Char) (acc : Nat),
    digitsVal cs acc = digitsVal (cs.takeWhile isDigitC) acc := by
  intro cs
  induction cs with
  | nil =>
    intro acc
    rfl
  | cons c rest ih =>
    intro acc
    by_cases hc : isDigitC c = true
    · rw [List.takeWhile_cons_of_pos hc]
      simp only [digitsVal, if_pos hc]
      exact ih _
    · rw [List.takeWhile_cons_of_neg (by simp [hc])]
      simp [digitsVal, hc]

theorem takeWhile_length_lt {cs : List Char}
    (h : ¬ ∀ c ∈ cs, isDigitC c = true) :
    (cs.takeWhile isDigitC).length < cs.length := by
  induction cs with
  | nil => exact absurd (by simp) h
  | cons c rest ih =>
    by_cases hc : isDigitC c = true
    · rw [List.takeWhile_cons_of_pos hc]
      have hrest : ¬ ∀ x ∈ rest, isDigitC x = true := by
        intro hall
        apply h
        intro x hx
        rcases List.mem_cons.1 hx with rfl | hx2
        · exact hc
        · exact hall x hx2
      have := ih hrest
      simp only [List.length_cons]
      omega
    · rw [List.takeWhile_cons_of_neg (by simp [hc])]
      simp

/-- Core equivalence: the digit count of the `atoi` accumulator value
equals the argument length exactly when the argument is empty or an
all-digit string with no leading zero. -/
theorem count_digitsVal_iff (cs : List Char) :
    countDigitsNat (digitsVal cs 0) = cs.length ↔ goodDigits cs = true := by
  cases cs with
  | nil => simp [digitsVal, countDigitsNat_zero, goodDigits]
  | cons c rest =>
    constructor
    · intro h
      by_cases hc : isDigitC c = true
      · by_cases hc0 : c = '0'
        · exfalso
          subst hc0
          have hv : digitsVal ('0' :: rest) 0 = digitsVal rest 0 := rfl
          rw [hv] at h
          have hub := digitsVal_lt rest 0
          have hub' : digitsVal rest 0 < 10 ^ rest.length := by
            have h1 : (0 + 1) * 10 ^ rest.length = 10 ^ rest.length := by ring
            omega
          have hle := (countDigitsNat_le_iff rest.length).2 hub'
          simp only [List.length_cons] at h
          omega
        · by_cases hall : ∀ x ∈ rest, isDigitC x = true
          · simp only [goodDigits, Bool.and_eq_true, Bool.not_eq_true',
              beq_eq_false_iff_ne, ne_eq, List.all_eq_true]
            exact ⟨⟨hc, hc0⟩, fun x hx => hall x hx⟩
          · exfalso
            have hwhole : ¬ ∀ x ∈ c :: rest, isDigitC x = true := by
              intro hall2
              exact hall (fun x hx => hall2 x (List.mem_cons_of_mem c hx))
            have htw := takeWhile_length_lt hwhole
            have hv := digitsVal_takeWhile (c :: rest) 0
            have hub := digitsVal_lt (List.takeWhile isDigitC (c :: rest)) 0
            have hub' : digitsVal (c :: rest) 0 <
                10 ^ (List.takeWhile isDigitC (c :: rest)).length := by
              rw [hv]
              have h1 : (0 + 1) * 10 ^ (List.takeWhile isDigitC (c :: rest)).length =
                10 ^ (List.takeWhile isDigitC (c :: rest)).length := by ring
              omega
            have hmono : 10 ^ (List.takeWhile isDigitC (c :: rest)).length ≤
                10 ^ ((c :: rest).length - 1) :=
              Nat.pow_le_pow_right (by norm_num) (by omega)
            have hle : countDigitsNat (digitsVal (c :: rest) 0) ≤
                (c :: rest).length - 1 := (countDigitsNat_le_iff _).2 (by omega)
            simp only [List.length_cons] at h hle
            omega
      · exfalso
        have hv : digitsVal (c :: rest) 0 = 0 := by simp [digitsVal, hc]
        rw [hv, countDigitsNat_zero] at h
        simp only [List.length_cons] at h
        omega
    · intro hg
      have hparts : isDigitC c = true ∧ c ≠ '0' ∧ ∀ x ∈ rest, isDigitC x = true := by
        simp only [goodDigits, Bool.and_eq_true, Bool.not_eq_true',
          beq_eq_false_iff_ne, ne_eq, List.all_eq_true] at hg
        exact ⟨hg.1.1, hg.1.2, fun x hx => hg.2 x hx⟩
      obtain ⟨hc, hc0, hall⟩ := hparts
      have hb := isDigitC_bounds hc
      have h49 : 49 ≤ c.toNat := by
        rcases Nat.lt_or_ge c.toNat 49 with hlt | hge
        · exfalso
          exact hc0 (char_eq_of_toNat_48 (by omega))
        · exact hge
      have hv : digitsVal (c :: rest) 0 = digitsVal rest (c.toNat - 48) := by
        simp [digitsVal, hc]
      have hlow := digitsVal_ge rest (c.toNat - 48) hall
      have hup := digitsVal_lt rest (c.toNat - 48)
      have h10len : 10 ^ rest.length ≤ digitsVal rest (c.toNat - 48) := by
        have h1 : 1 * 10 ^ rest.length ≤ (c.toNat - 48) * 10 ^ rest.length :=
          Nat.mul_le_mul_right _ (by omega)
        have h2 : 1 * 10 ^ rest.length = 10 ^ rest.length := by ring
        omega
      have hup2 : digitsVal rest (c.toNat - 48) < 10 ^ (rest.length + 1) := by
        have h1 : (c.toNat - 48 + 1) * 10 ^ rest.length ≤ 10 * 10 ^ rest.length :=
          Nat.mul_le_mul_right _ (by omega)
        have h2 : 10 * 10 ^ rest.length = 10 ^ (rest.length + 1) := by ring
        omega
      have hle := (countDigitsNat_le_iff (rest.length + 1)).2 hup2
      have hgt : ¬ countDigitsNat (digitsVal rest (c.toNat - 48)) ≤ rest.length := by
        intro hcon
        have := (countDigitsNat_le_iff rest.length).1 hcon
        omega
      rw [hv]
      simp only [List.length_cons]
      omega

theorem isSpaceC_false_of_digit {c : Char} (h : isDigitC c = true) :
    isSpaceC c = false := by
  cases hsp : isSpaceC c with
  | false => rfl
  | true =>
    exfalso
    have hb := isDigitC_bounds h
    simp only [isSpaceC, Bool.or_eq_true, beq_iff_eq] at hsp
    rcases hsp with ((((rfl | rfl) | rfl) | rfl) | rfl) | rfl <;>
      exact absurd hb.1 (by decide)

theorem atoiChars_digits {c : Char} {rest : List Char} (hc : isDigitC c = true) :
    atoiChars (c :: rest) = (digitsVal (c :: rest) 0 : Int) := by
  unfold atoiChars
  rw [List.dropWhile_cons_of_neg (by simp [isSpaceC_false_of_digit hc])]
  have hm : c ≠ '-' := by
    intro hh
    subst hh
    exact absurd (isDigitC_bounds hc).1 (by decide)
  have hp2 : c ≠ '+' := by
    intro hh
    subst hh
    exact absurd (isDigitC_bounds hc).1 (by decide)
  simp only [atoiSigned]
  rw [if_neg hm, if_neg hp2]

theorem atoiSigned_toNat_lt (l : List Char) :
    (atoiSigned l).toNat < 10 ^ l.length := by
  cases l with
  | nil =>
    show (0 : Int).toNat < 10 ^ (0 : Nat)
    norm_num
  | cons c rest =>
    simp only [atoiSigned]
    by_cases hm : c = '-'
    · rw [if_pos hm]
      have h0 : (-(digitsVal rest 0 : Int)).toNat = 0 := by omega
      rw [h0]
      positivity
    · by_cases hp2 : c = '+'
      · rw [if_neg hm, if_pos hp2, Int.toNat_ofNat]
        have h1 := digitsVal_lt rest 0
        have hmono : 10 ^ rest.length ≤ 10 ^ (rest.length + 1) :=
          Nat.pow_le_pow_right (by norm_num) (by omega)
        simp only [List.length_cons]
        omega
      · rw [if_neg hm, if_neg hp2, Int.toNat_ofNat]
        have h1 := digitsVal_lt (c :: rest) 0
        omega

/-- The digit-count check on the full `atoi` pipeline accepts exactly the
good arguments. -/
theorem count_atoi_iff (cs : List Char) :
    countDigits (atoiChars cs) = cs.length ↔ goodDigits cs = true := by
  cases cs with
  | nil =>
    show countDigits (atoiSigned ([].dropWhile isSpaceC)) = 0 ↔ _
    simp [atoiSigned, countDigits, countDigitsNat_zero, goodDigits]
  | cons c rest =>
    by_cases hc : isDigitC c = true
    · rw [atoiChars_digits hc]
      rw [show countDigits ((digitsVal (c :: rest) 0 : Nat) : Int) =
        countDigitsNat (digitsVal (c :: rest) 0) from by
          simp [countDigits]]
      exact count_digitsVal_iff (c :: rest)
    · have hgd : goodDigits (c :: rest) = false := by
        simp [goodDigits, hc]
      rw [hgd]
      simp only [Bool.false_eq_true, iff_false]
      intro h
      by_cases hsp : isSpaceC c = true
      · have hstep : atoiChars (c :: rest) = atoiSigned (rest.dropWhile isSpaceC) := by
          unfold atoiChars
          rw [List.dropWhile_cons_of_pos hsp]
        have hlt := atoiSigned_toNat_lt (rest.dropWhile isSpaceC)
        have hdl : (rest.dropWhile isSpaceC).length ≤ rest.length :=
          (List.dropWhile_sublist isSpaceC).length_le
        have hmono : 10 ^ (rest.dropWhile isSpaceC).length ≤ 10 ^ rest.length :=
          Nat.pow_le_pow_right (by norm_num) hdl
        have hcount : countDigits (atoiChars (c :: rest)) ≤ rest.length := by
          rw [hstep]
          exact (countDigitsNat_le_iff rest.length).2 (by omega)
        simp only [List.length_cons] at h
        omega
      · have hdw : (c :: rest).dropWhile isSpaceC = c :: rest :=
          List.dropWhile_cons_of_neg (by simp [hsp])
        by_cases hm : c = '-'
        · subst hm
          have hval : atoiChars ('-' :: rest) = - (digitsVal rest 0 : Int) := by
            unfold atoiChars
            rw [hdw]
            simp [atoiSigned]
          rw [hval] at h
          have h0 : (-(digitsVal rest 0 : Int)).toNat = 0 := by omega
          rw [show countDigits (-(digitsVal rest 0 : Int)) =
            countDigitsNat ((-(digitsVal rest 0 : Int)).toNat) from rfl, h0,
            countDigitsNat_zero] at h
          simp only [List.length_cons] at h
          omega
        · by_cases hp2 : c = '+'
          · subst hp2
            have hval : atoiChars ('+' :: rest) = (digitsVal rest 0 : Int) := by
              unfold atoiChars
              rw [hdw]
              simp [atoiSigned]
            rw [hval] at h
            rw [show countDigits ((digitsVal rest 0 : Nat) : Int) =
              countDigitsNat (digitsVal rest 0) from by simp [countDigits]] at h
            have hub := digitsVal_lt rest 0
            have hub' : digitsVal rest 0 < 10 ^ rest.length := by
              have h1 : (0 + 1) * 10 ^ rest.length = 10 ^ rest.length := by ring
              omega
            have hle := (countDigitsNat_le_iff rest.length).2 hub'
            simp only [List.length_cons] at h
            omega
          · have hval : atoiChars (c :: rest) = (digitsVal (c :: rest) 0 : Int) := by
              unfold atoiChars
              rw [hdw]
              simp only [atoiSigned]
              rw [if_neg hm, if_neg hp2]
            have hv0 : digitsVal (c :: rest) 0 = 0 := by simp [digitsVal, hc]
            rw [hval, hv0] at h
            rw [show countDigits ((0 : Nat) : Int) = 0 from rfl] at h
            simp only [List.length_cons] at h
            omega

/-- The `%jid` path: after the `'%' → '0'` overwrite, the check accepts
exactly the good remainders. -/
theorem count_atoi_pct_iff (rest : List Char) :
    countDigits (atoiChars ('0' :: rest)) = rest.length ↔
      goodDigits rest = true := by
  have h0 : atoiChars ('0' :: rest) = (digitsVal ('0' :: rest) 0 : Int) :=
    atoiChars_digits (by decide)
  have h1 : digitsVal ('0' :: rest) 0 = digitsVal rest 0 := rfl
  rw [h0, h1]
  rw [show countDigits ((digitsVal rest 0 : Nat) : Int) =
    countDigitsNat (digitsVal rest 0) from by simp [countDigits]]
  exact count_digitsVal_iff rest

/-! ### Claim C5 -/

/-- Claim C5 (as frozen) is false on the code: the digit-count check
compares the number of decimal digits of `atoi(arg)` with `strlen(arg)`,
so the all-digit argument `"007"` (whose value 7 has one digit but whose
length is 3) is rejected with the error message, although the claim
requires every all-digit argument to be accepted. -/
theorem claim_C5_cex :
    (∀ ch ∈ "007".toList, isDigitC ch = true) ∧
    do_bgfg "bg" (some "007") initState =
      (initState, [Eff.print "bg: argument must be PID or %jobid\n"]) := by
  decide

/-- Claim C5 (amended): a missing target yields exactly
`"<cmd>: command must be a PID or %jobid argument"`; a present target is
accepted if and only if, after stripping an optional leading `%`, the
remainder is empty or is a run of decimal digits with no leading zero
(equivalently, the digit count of its numeric value equals its length);
a rejected target yields exactly `"<cmd>: argument must be PID or %jobid"`
with no table mutation, and an accepted one is handed to the resolution
stage `bgfgAct`. -/
theorem claim_C5 (cmd : String) (s : ShellSt) (hcmd : cmd = "fg" ∨ cmd = "bg") :
    do_bgfg cmd none s =
      (s, [Eff.print (cmd ++ ": command must be a PID or %jobid argument\n")]) ∧
    (∀ a : String, goodTarget a = false →
      do_bgfg cmd (some a) s =
        (s, [Eff.print (cmd ++ ": argument must be PID or %jobid\n")])) ∧
    (∀ a : String, goodTarget a = true →
      do_bgfg cmd (some a) s =
        bgfgAct cmd (atoiChars (stripArg a.toList).1) (stripArg a.toList).2.2 s) := by
  refine ⟨?_, ?_, ?_⟩
  · unfold do_bgfg
    rw [if_pos hcmd]
  · intro a hbad
    unfold do_bgfg
    rw [if_pos hcmd]
    unfold goodTarget at hbad
    cases hcs : a.toList with
    | nil =>
      rw [hcs] at hbad
      simp at hbad
    | cons c rest =>
      rw [hcs] at hbad
      dsimp only at hbad
      dsimp only
      rw [hcs]
      by_cases hpct : c = '%'
      · rw [if_pos hpct] at hbad
        subst hpct
        have hstrip : stripArg ('%' :: rest) = ('0' :: rest, rest.length, true) := by
          simp [stripArg]
        rw [hstrip]
        have hne : countDigits (atoiChars ('0' :: rest)) ≠ rest.length := by
          intro hEq
          have := (count_atoi_pct_iff rest).1 hEq
          rw [this] at hbad
          cases hbad
        rw [if_pos hne]
      · rw [if_neg hpct] at hbad
        have hstrip : stripArg (c :: rest) =
            (c :: rest, (c :: rest).length, false) := by
          simp [stripArg, hpct]
        rw [hstrip]
        have hne : countDigits (atoiChars (c :: rest)) ≠ (c :: rest).length := by
          intro hEq
          have := (count_atoi_iff (c :: rest)).1 hEq
          rw [this] at hbad
          cases hbad
        rw [if_pos hne]
  · intro a hgood
    unfold do_bgfg
    rw [if_pos hcmd]
    unfold goodTarget at hgood
    cases hcs : a.toList with
    | nil =>
      dsimp only
      rw [hcs]
      rw [show stripArg [] = ([], 0, false) from rfl]
      rw [if_neg (by decide)]
    | cons c rest =>
      rw [hcs] at hgood
      dsimp only at hgood
      dsimp only
      rw [hcs]
      by_cases hpct : c = '%'
      · rw [if_pos hpct] at hgood
        subst hpct
        have hstrip : stripArg ('%' :: rest) = ('0' :: rest, rest.length, true) := by
          simp [stripArg]
        rw [hstrip]
        have hEq : countDigits (atoiChars ('0' :: rest)) = rest.length :=
          (count_atoi_pct_iff rest).2 hgood
        rw [if_neg (show ¬(countDigits (atoiChars ('0' :: rest)) ≠ rest.length)
          from by omega)]
      · rw [if_neg hpct] at hgood
        have hstrip : stripArg (c :: rest) =
            (c :: rest, (c :: rest).length, false) := by
          simp [stripArg, hpct]
        rw [hstrip]
        have hEq : countDigits (atoiChars (c :: rest)) = (c :: rest).length :=
          (count_atoi_iff (c :: rest)).2 hgood
        rw [if_neg (show ¬(countDigits (atoiChars (c :: rest)) ≠ (c :: rest).length)
          from by omega)]

/-- Witness for C5: `bg 1x` is rejected with the exact message and no
mutation. -/
theorem claim_C5_witness :
    (("bg" : String) = "fg" ∨ ("bg" : String) = "bg") ∧
    goodTarget "1x" = false ∧
    do_bgfg "bg" (some "1x") initState =
      (initState, [Eff.print ("bg" ++ ": argument must be PID or %jobid\n")]) :=
  ⟨Or.inr rfl, by decide,
    (claim_C5 "bg" initState (Or.inr rfl)).2.1 "1x" (by decide)⟩

end Tsh
